import Mathlib

/-!
# Parallel spell checker: shallow embedding and verified properties

Sources embedded: `common.h`, `common.c`, `spellchecker_pthread.c`, `spellchecker_omp.c`.

Modelling conventions

* A C string (`const char *`, `char[MAX_WORD_LENGTH]`) is the list of its bytes before the
  terminating NUL, each byte read as `unsigned char`.
* The global arrays are lists: `dictionary` with `dictSize` its length, `inputWords` with
  `wordCount` its length, `misspelledWords` with `misspelledCount` its length. An entry of
  `misspelledWords` is a pointer to one `inputWords[i]`; it is modelled by the index `i`.
* `int` variables that can be negative (`high`, `end`) are `Int`.  In `isWordInDictionary`
  the sum `low + high` is checked against the 32-bit range and every array read against the
  array bounds; a violation, like running out of loop fuel, makes the model return `none`.
  In `editDistance` every stored value is an entry of the distance matrix and every
  temporary is such an entry plus one; the entries are at most `max len1 len2`
  (`rowDistance_le_max`), so the values are modelled by `Nat`.
* Allocation is taken to succeed: the `exit(1)` and `pthread_exit` paths after a failed
  `malloc` are outside the model.
* The macros of `common.h` are given as definitions; the functions take the worker count,
  the threshold, the print limit and the misspelled cap as parameters, so every statement
  holds for the configured constants in particular.
* Threads: the dictionary and the input are read-only while threads run.  A step of a
  spell-check thread is one loop iteration (lookup, then the mutex-protected append); a run
  is a schedule, the list of the worker ids in the order in which their iterations commit.
  `spellCheckThreadStepOwners` runs the same steps and notes, for every appended entry, the
  worker that appended it.
* The tokenizer works on the bytes of the input file: `fgets` fills the line buffer (up to a
  newline, at most 999 bytes), `strtok` with the delimiter string of the source scans the
  C string in the buffer, `toLowerCase` is applied to each token, and the number of input
  words is capped.
-/

/-! ## Constants of `common.h` -/

def MAX_DICT_WORDS : Nat := 466600
def MAX_WORD_LENGTH : Nat := 50
def MAX_MISSPELLED : Nat := 5000
def SUGGESTION_THRESHOLD : Int := 2
def MAX_PRINT_SUGGESTIONS : Nat := 5
def NUM_THREADS : Nat := 8

def INT_MIN : Int := -2147483648
def INT_MAX : Int := 2147483647

/-! ## Strings and libc -/

/-- Bytes of a C string before its NUL terminator. -/
abbrev CStr := List Nat

/-- Expression `s[k]` on a C string: the byte at offset `k`, the NUL at the terminator. -/
def charAt (s : CStr) (k : Nat) : Nat := s.getD k 0

/-- Library function `strcmp`: bytes are compared as `unsigned char` up to the first
difference, a string that ends first is the smaller one.  ISO C fixes only the sign of the
result; the model returns `-1`, `0` or `1`. -/
def strcmp : CStr → CStr → Int
  | [], [] => 0
  | [], _ :: _ => -1
  | _ :: _, [] => 1
  | x :: a, y :: b => if x = y then strcmp a b else if x < y then -1 else 1

/-- Iteration space of `for (int i = first; i <= last; i++)`. -/
def forRange (first last : Int) : List Int :=
  (List.range (last + 1 - first).toNat).map (fun (k : Nat) => first + (k : Int))

/-- A value of type `int`, or `none` when it is outside the 32-bit range. -/
def checkInt32 (x : Int) : Option Int :=
  if INT_MIN ≤ x ∧ x ≤ INT_MAX then some x else none

/-! ## `common.c` -/

/-- Comparator `cmpDictionary` given to `qsort` for the dictionary. -/
def cmpDictionary (a b : CStr) : Int := strcmp a b

/-- The `while (low <= high)` loop of `isWordInDictionary`; one unit of fuel per iteration.
`none`: out of fuel, `low + high` outside `int`, or `mid` outside `0 .. dictSize - 1`. -/
def isWordInDictionaryLoop (dictionary : List CStr) (word : CStr) : Nat → Int → Int → Option Int
  | 0, _, _ => none
  | fuel + 1, low, high =>
    if low ≤ high then
      match checkInt32 (low + high) with
      | none => none
      | some sum =>
        let mid := Int.tdiv sum 2
        if 0 ≤ mid ∧ mid < (dictionary.length : Int) then
          let cmp := strcmp word (dictionary.getD mid.toNat [])
          if cmp = 0 then some 1
          else if cmp < 0 then isWordInDictionaryLoop dictionary word fuel low (mid - 1)
          else isWordInDictionaryLoop dictionary word fuel (mid + 1) high
        else none
    else some 0

/-- Iterations of the same loop with plain integer arithmetic: the values `(low, high, mid)`
of each pass, `dictionary[mid]` being the entry the pass reads. -/
def isWordInDictionaryReads (dictionary : List CStr) (word : CStr) :
    Nat → Int → Int → List (Int × Int × Int)
  | 0, _, _ => []
  | fuel + 1, low, high =>
    if low ≤ high then
      let mid := Int.tdiv (low + high) 2
      let cmp := strcmp word (dictionary.getD mid.toNat [])
      (low, high, mid) ::
        (if cmp = 0 then []
        else if cmp < 0 then isWordInDictionaryReads dictionary word fuel low (mid - 1)
        else isWordInDictionaryReads dictionary word fuel (mid + 1) high)
    else []

/-- Function `isWordInDictionary`: binary search over `dictionary[0 .. dictSize - 1]`. -/
def isWordInDictionary (dictionary : List CStr) (word : CStr) : Option Int :=
  isWordInDictionaryLoop dictionary word (dictionary.length + 1) 0
    ((dictionary.length : Int) - 1)

/-- Body of the inner `for (j = 1; j <= len2; j++)` loop of `editDistance`: writes
`curr[j]`. -/
def editDistanceCell (s1 s2 : CStr) (prev : List Nat) (i : Nat) (curr : List Nat) (j : Nat) :
    List Nat :=
  let cost := if charAt s1 (i - 1) = charAt s2 (j - 1) then 0 else 1
  let deletion := prev.getD j 0 + 1
  let insertion := curr.getD (j - 1) 0 + 1
  let substitution := prev.getD (j - 1) 0 + cost
  let min := deletion
  let min := if insertion < min then insertion else min
  let min := if substitution < min then substitution else min
  curr.set j min

/-- One pass of the outer loop body up to the copy: `curr[0] = i`, then the inner loop. -/
def editDistanceRow (s1 s2 : CStr) (prev curr : List Nat) (i : Nat) : List Nat :=
  (List.range' 1 s2.length).foldl (editDistanceCell s1 s2 prev i) (curr.set 0 i)

/-- The loop `for (j = 0; j <= len2; j++) prev[j] = curr[j];`. -/
def copyRow (len2 : Nat) (prev curr : List Nat) : List Nat :=
  (List.range (len2 + 1)).foldl (fun p j => p.set j (curr.getD j 0)) prev

/-- Function `editDistance`: two rolling rows `prev`, `curr` of `len2 + 1` cells.  The
freshly allocated rows are modelled as zero-filled; every cell is written before it is
read. -/
def editDistance (s1 s2 : CStr) : Nat :=
  let len1 := s1.length
  let len2 := s2.length
  let prev := (List.range (len2 + 1)).foldl (fun p j => p.set j j) (List.replicate (len2 + 1) 0)
  let curr := List.replicate (len2 + 1) 0
  let st := (List.range' 1 len1).foldl
    (fun (st : List Nat × List Nat) i =>
      let curr := editDistanceRow s1 s2 st.1 st.2 i
      (copyRow len2 st.1 curr, curr)) (prev, curr)
  st.1.getD len2 0

/-- The `struct Suggestion` of `common.h`. -/
structure Suggestion where
  word : CStr
  distance : Int
deriving DecidableEq, Repr

/-- Comparator `cmpSuggestion`: distance difference, then `strcmp` of the words. -/
def cmpSuggestion (sa sb : Suggestion) : Int :=
  if sa.distance ≠ sb.distance then sa.distance - sb.distance
  else strcmp sa.word sb.word

/-- Library function `qsort`: the array is put in ascending order of the comparator; the
algorithm is left open by ISO C.  The model inserts each element in turn; for a comparator
under which only equal elements compare equal every sorting algorithm gives this result
(`qsort_unique`). -/
def qsort {α : Type} (cmp : α → α → Int) (l : List α) : List α :=
  l.insertionSort (fun a b => cmp a b ≤ 0)

/-! ## Partitioning loop shared by `main` and `suggestCorrections` (pthread) -/

/-- Fields `start` and `end` of `SpellThreadData` and of `SuggestThreadData`. -/
structure ThreadRange where
  start : Int
  end_ : Int
deriving DecidableEq, Repr

/-- The loop `for (i = 0; i < NUM_THREADS; i++)` that fills `start` and `end`; the first
argument counts the workers still to be set up. -/
def partitionLoop (chunk : Int) : Nat → Int → Int → List ThreadRange
  | 0, _, _ => []
  | k + 1, start, remainder =>
    let end0 := start + chunk - 1
    if remainder > 0 then
      ThreadRange.mk start (end0 + 1) :: partitionLoop chunk k (end0 + 1 + 1) (remainder - 1)
    else
      ThreadRange.mk start end0 :: partitionLoop chunk k (end0 + 1) remainder

/-- Ranges handed to the `numThreads` workers for `count` items: `chunk = count / T`,
`remainder = count % T`, `start = 0`. -/
def partition (count : Nat) (numThreads : Nat) : List ThreadRange :=
  partitionLoop (Int.tdiv count numThreads) numThreads 0 (Int.tmod count numThreads)

/-- Number of indices of a range, the `range = end - start + 1` of `suggestionThread`. -/
def chunkSize (d : ThreadRange) : Int := d.end_ - d.start + 1

/-! ## Classification (`spellCheckThread`, OpenMP `spellCheck`) -/

/-- Shared globals touched by classification. -/
structure Globals where
  inputWords : List CStr
  misspelledWords : List Int
deriving DecidableEq, Repr

/-- Loop body common to `spellCheckThread` and the OpenMP `spellCheck`, for index `i`:
the lookup, then inside the critical region the capped append. -/
def spellCheckIteration (maxMisspelled : Nat) (dictionary : List CStr) (g : Globals)
    (i : Int) : Option Globals :=
  if 0 ≤ i ∧ i < (g.inputWords.length : Int) then
    match isWordInDictionary dictionary (g.inputWords.getD i.toNat []) with
    | none => none
    | some found =>
      if found = 0 then
        if g.misspelledWords.length < maxMisspelled then
          some (Globals.mk g.inputWords (g.misspelledWords ++ [i]))
        else some g
      else some g
  else none

/-- State of the classification phase: the globals and the loop variable `i` of every
spell-check thread. -/
structure SpellState where
  globals : Globals
  counters : List Int
deriving DecidableEq, Repr

/-- Worker `k` runs one iteration of its loop in `spellCheckThread`.  A worker whose loop
has ended (or an id that names no worker) leaves the state as it is. -/
def spellCheckThreadStep (maxMisspelled : Nat) (dictionary : List CStr)
    (data : List ThreadRange) (s : SpellState) (k : Nat) : Option SpellState :=
  match data[k]?, s.counters[k]? with
  | some d, some i =>
    if i ≤ d.end_ then
      match spellCheckIteration maxMisspelled dictionary s.globals i with
      | none => none
      | some g => some (SpellState.mk g (s.counters.set k (i + 1)))
    else some s
  | _, _ => some s

/-- State after `main` has created the threads: every loop variable at its `start`, the
misspelled list empty. -/
def spellCheckInit (inputWords : List CStr) (data : List ThreadRange) : SpellState :=
  SpellState.mk (Globals.mk inputWords []) (data.map (fun d => d.start))

/-- Every spell-check thread has left its loop (`i > end`), so `pthread_join` returns. -/
def spellCheckJoined (data : List ThreadRange) (s : SpellState) : Prop :=
  ∀ p ∈ List.zip data s.counters, p.1.end_ < p.2

instance (data : List ThreadRange) (s : SpellState) : Decidable (spellCheckJoined data s) :=
  inferInstanceAs (Decidable (∀ p ∈ List.zip data s.counters, p.1.end_ < p.2))

/-- Classification of the pthread program under a schedule. -/
def spellCheckPthread (numThreads maxMisspelled : Nat) (dictionary inputWords : List CStr)
    (schedule : List Nat) : Option SpellState :=
  let data := partition inputWords.length numThreads
  schedule.foldlM (spellCheckThreadStep maxMisspelled dictionary data)
    (spellCheckInit inputWords data)

/-- Step of worker `k` together with a record of who appended what: `owners` lists, entry
by entry of `misspelledWords`, the id of the worker that appended it. -/
def spellCheckThreadStepOwners (maxMisspelled : Nat) (dictionary : List CStr)
    (data : List ThreadRange) (st : SpellState × List Nat) (k : Nat) :
    Option (SpellState × List Nat) :=
  match spellCheckThreadStep maxMisspelled dictionary data st.1 k with
  | none => none
  | some s =>
    if st.1.globals.misspelledWords.length < s.globals.misspelledWords.length then
      some (s, st.2 ++ [k])
    else some (s, st.2)

/-- Classification of the pthread program under a schedule, with the record of the
appending workers. -/
def spellCheckPthreadOwners (numThreads maxMisspelled : Nat)
    (dictionary inputWords : List CStr) (schedule : List Nat) :
    Option (SpellState × List Nat) :=
  let data := partition inputWords.length numThreads
  schedule.foldlM (spellCheckThreadStepOwners maxMisspelled dictionary data)
    (spellCheckInit inputWords data, [])

/-- Entries of the misspelled list appended by worker `k`, in list order. -/
def contributedBy (k : Nat) (owners : List Nat) (misspelled : List Int) : List Int :=
  ((List.zip owners misspelled).filter (fun p => decide (p.1 = k))).map (fun p => p.2)

/-- OpenMP `spellCheck`: the iterations `0 .. wordCount - 1` commit in the order `order`. -/
def spellCheckOmp (maxMisspelled : Nat) (dictionary inputWords : List CStr)
    (order : List Int) : Option Globals :=
  order.foldlM (spellCheckIteration maxMisspelled dictionary) (Globals.mk inputWords [])

/-! ## Suggestions (`suggestionThread`, `suggestCorrections`) -/

/-- Loop body of `suggestionThread` (and of the OpenMP loop) for dictionary index `i`. -/
def suggestionIteration (threshold : Int) (dictionary : List CStr) (word : CStr)
    (wordLen : Int) (candidates : List Suggestion) (i : Int) : Option (List Suggestion) :=
  if 0 ≤ i ∧ i < (dictionary.length : Int) then
    let entry := dictionary.getD i.toNat []
    let dictWordLen : Int := entry.length
    if |dictWordLen - wordLen| > threshold then some candidates
    else
      let dist : Int := editDistance word entry
      if dist ≤ threshold then some (candidates ++ [Suggestion.mk entry dist])
      else some candidates
  else none

/-- Function `suggestionThread`: the candidates of the range `start .. end`. -/
def suggestionThread (threshold : Int) (dictionary : List CStr) (word : CStr) (wordLen : Int)
    (d : ThreadRange) : Option (List Suggestion) :=
  (forRange d.start d.end_).foldlM (suggestionIteration threshold dictionary word wordLen) []

/-- Second half of `suggestCorrections`: nothing when there is no candidate, else the
sorted candidates cut to `toPrint` entries. -/
def rankSuggestions (maxPrint : Nat) (merged : List Suggestion) : List Suggestion :=
  let totalCandidates := merged.length
  if totalCandidates = 0 then []
  else
    let toPrint := if totalCandidates < maxPrint then totalCandidates else maxPrint
    (qsort cmpSuggestion merged).take toPrint

namespace Pthread

/-- Per-thread candidate buffers after all suggestion threads have been joined. -/
def candidateBuffers (numThreads : Nat) (threshold : Int) (dictionary : List CStr)
    (word : CStr) : Option (List (List Suggestion)) :=
  (partition dictionary.length numThreads).mapM
    (suggestionThread threshold dictionary word word.length)

/-- The array `merged`: the buffers copied one after the other in thread order. -/
def mergedCandidates (numThreads : Nat) (threshold : Int) (dictionary : List CStr)
    (word : CStr) : Option (List Suggestion) :=
  (candidateBuffers numThreads threshold dictionary word).map List.flatten

/-- Function `suggestCorrections` of the pthread program: the suggestions it prints, with
their distances. -/
def suggestCorrections (numThreads : Nat) (threshold : Int) (maxPrint : Nat)
    (dictionary : List CStr) (word : CStr) : Option (List Suggestion) :=
  (mergedCandidates numThreads threshold dictionary word).map (rankSuggestions maxPrint)

/-- Words printed by `suggestCorrections`. -/
def printedSuggestions (numThreads : Nat) (threshold : Int) (maxPrint : Nat)
    (dictionary : List CStr) (word : CStr) : Option (List CStr) :=
  (suggestCorrections numThreads threshold maxPrint dictionary word).map
    (List.map Suggestion.word)

end Pthread

namespace Omp

/-- The array `candidates` after the parallel loop, the iterations committing in the order
`order`. -/
def collectedCandidates (threshold : Int) (dictionary : List CStr) (word : CStr)
    (order : List Int) : Option (List Suggestion) :=
  order.foldlM (suggestionIteration threshold dictionary word word.length) []

/-- Function `suggestCorrections` of the OpenMP program. -/
def suggestCorrections (threshold : Int) (maxPrint : Nat) (dictionary : List CStr)
    (word : CStr) (order : List Int) : Option (List Suggestion) :=
  (collectedCandidates threshold dictionary word order).map (rankSuggestions maxPrint)

/-- Words printed by the OpenMP `suggestCorrections`. -/
def printedSuggestions (threshold : Int) (maxPrint : Nat) (dictionary : List CStr)
    (word : CStr) (order : List Int) : Option (List CStr) :=
  (suggestCorrections threshold maxPrint dictionary word order).map
    (List.map Suggestion.word)

end Omp

/-! ## Reference notions taken from the specification -/

/-- Levenshtein distance by its recursive definition: deleting, inserting and
substituting one character each cost 1. -/
def levenshteinRef : CStr → CStr → Nat
  | [], b => b.length
  | x :: a, [] => (x :: a).length
  | x :: a, y :: b =>
    min (min (levenshteinRef a (y :: b) + 1) (levenshteinRef (x :: a) b + 1))
      (levenshteinRef a b + if x = y then 0 else 1)
termination_by a b => a.length + b.length

/-- `EditScript a b n`: `a` is turned into `b` by a left-to-right script of single-character
deletions, insertions and substitutions, `n` of them in all (characters kept are free). -/
inductive EditScript : CStr → CStr → Nat → Prop
  | done : EditScript [] [] 0
  | delete (x : Nat) {a b : CStr} {n : Nat} : EditScript a b n → EditScript (x :: a) b (n + 1)
  | insert (y : Nat) {a b : CStr} {n : Nat} : EditScript a b n → EditScript a (y :: b) (n + 1)
  | keep (x : Nat) {a b : CStr} {n : Nat} : EditScript a b n → EditScript (x :: a) (x :: b) n
  | substitute (x y : Nat) {a b : CStr} {n : Nat} :
      EditScript a b n → EditScript (x :: a) (y :: b) (n + 1)

/-- Distance between the first `i` characters of `s1` and the first `j` of `s2`, the
content of cell `j` of row `i` of the distance matrix. -/
def rowDistance (s1 s2 : CStr) (i j : Nat) : Nat :=
  levenshteinRef (s1.take i).reverse (s2.take j).reverse

/-- The list `row` holds row `i` of the distance matrix of `s1` and `s2`. -/
def IsRow (s1 s2 : CStr) (i : Nat) (row : List Nat) : Prop :=
  row.length = s2.length + 1 ∧ ∀ j, j ≤ s2.length → row.getD j 0 = rowDistance s1 s2 i j

/-- Byte-wise lexicographic order on words, strict. -/
def WordLt (a b : CStr) : Prop := List.Lex (fun x y : Nat => x < y) a b

instance : DecidableRel WordLt := fun a b =>
  inferInstanceAs (Decidable (List.Lex (fun x y : Nat => x < y) a b))

/-- A dictionary sorted ascending in byte-wise lexicographic order, duplicates allowed. -/
def DictSorted (dictionary : List CStr) : Prop :=
  List.Pairwise (fun a b => a = b ∨ WordLt a b) dictionary

instance (dictionary : List CStr) : Decidable (DictSorted dictionary) :=
  inferInstanceAs (Decidable (List.Pairwise _ dictionary))

/-- Total order of suggestions in the specification: distance ascending, then word
ascending. -/
def SuggestionLe (x y : Suggestion) : Prop :=
  x.distance < y.distance ∨ (x.distance = y.distance ∧ (x.word = y.word ∨ WordLt x.word y.word))

instance : DecidableRel SuggestionLe := fun x y =>
  inferInstanceAs (Decidable (x.distance < y.distance ∨
    (x.distance = y.distance ∧ (x.word = y.word ∨ WordLt x.word y.word))))

/-- What the specification asks of one dictionary entry: a candidate carrying the edit
distance when that distance is within `threshold`, nothing otherwise. -/
def candidateOf (threshold : Int) (word entry : CStr) : Option Suggestion :=
  if (editDistance word entry : Int) ≤ threshold then
    some (Suggestion.mk entry (editDistance word entry))
  else none

/-- Candidates the specification asks for: one per dictionary index whose entry is within
`threshold` of `word`, with that distance, in index order. -/
def expectedCandidates (threshold : Int) (dictionary : List CStr) (word : CStr) :
    List Suggestion :=
  dictionary.filterMap (candidateOf threshold word)

/-- Index set of a range list, in worker order. -/
def assignedIndices (data : List ThreadRange) : List Int :=
  (data.map (fun d => forRange d.start d.end_)).flatten

/-- Input word that the pointer `inputWords[i]` designates. -/
def wordAt (inputWords : List CStr) (i : Int) : CStr := inputWords.getD i.toNat []

/-- Test `!isWordInDictionary(w)` of the classification loops. -/
def notInDictionary (dictionary : List CStr) (w : CStr) : Bool :=
  decide (isWordInDictionary dictionary w = some 0)

/-- Indices that the spell-check threads have still to process, in worker order, when
their loop variables are `counters`. -/
def pendingIndices (data : List ThreadRange) (counters : List Int) : List Int :=
  (List.zipWith (fun d i => forRange i d.end_) data counters).flatten

/-- Invariant of classification: the input is untouched, the misspelled list is the list of
out-of-dictionary indices among the processed ones `done` (in processing order) cut at the
cap, and processed and pending indices together are the assigned ones. -/
def SpellInv (maxMisspelled : Nat) (dictionary inputWords : List CStr)
    (data : List ThreadRange) (s : SpellState) (done : List Int) : Prop :=
  s.globals.inputWords = inputWords ∧
  s.globals.misspelledWords =
    (done.filter (fun i => notInDictionary dictionary (wordAt inputWords i))).take
      maxMisspelled ∧
  (done ++ pendingIndices data s.counters).Perm (assignedIndices data)

/-- Invariant of the record of appending workers: one owner per entry, every entry lies
below the loop variable of its owner, and entries of one owner are in increasing order. -/
def OwnersInv (data : List ThreadRange) (st : SpellState × List Nat) : Prop :=
  st.2.length = st.1.globals.misspelledWords.length ∧
  (∀ p ∈ List.zip st.2 st.1.globals.misspelledWords,
    p.1 < data.length ∧ ∀ c, st.1.counters[p.1]? = some c → p.2 < c) ∧
  List.Pairwise (fun p q : Nat × Int => p.1 = q.1 → p.2 < q.2)
    (List.zip st.2 st.1.globals.misspelledWords)

/-- Result of classification asked by the specification, for the misspelled list
`misspelled` (pointers into the input): below the cap it holds, as a multiset, the input
occurrences not in the dictionary; above the cap it holds exactly `maxMisspelled` distinct
input occurrences, each not in the dictionary. -/
def ClassifiedUpToCap (maxMisspelled : Nat) (dictionary inputWords : List CStr)
    (misspelled : List Int) : Prop :=
  ((inputWords.filter (notInDictionary dictionary)).length ≤ maxMisspelled →
    (misspelled.map (wordAt inputWords)).Perm
      (inputWords.filter (notInDictionary dictionary))) ∧
  (maxMisspelled < (inputWords.filter (notInDictionary dictionary)).length →
    misspelled.length = maxMisspelled ∧ misspelled.Nodup ∧
    ∀ i ∈ misspelled, 0 ≤ i ∧ i < (inputWords.length : Int) ∧
      isWordInDictionary dictionary (wordAt inputWords i) = some 0)

/-! ## Edit distance: the recursive definition and edit scripts -/

theorem levenshteinRef_nil_right (a : CStr) : levenshteinRef a [] = a.length := by
  cases a <;> simp [levenshteinRef]

theorem levenshteinRef_cons_cons (x y : Nat) (a b : CStr) :
    levenshteinRef (x :: a) (y :: b) =
      min (min (levenshteinRef a (y :: b) + 1) (levenshteinRef (x :: a) b + 1))
        (levenshteinRef a b + if x = y then 0 else 1) := by
  rw [levenshteinRef]

theorem editScript_levenshteinRef (a b : CStr) : EditScript a b (levenshteinRef a b) := by
  induction a generalizing b with
  | nil =>
    induction b with
    | nil => simpa [levenshteinRef] using EditScript.done
    | cons y b ih => simpa [levenshteinRef] using EditScript.insert y ih
  | cons x a iha =>
    induction b with
    | nil =>
      have := EditScript.delete x (iha [])
      simpa [levenshteinRef_nil_right] using this
    | cons y b ihb =>
      rw [levenshteinRef_cons_cons]
      have h1 := EditScript.delete x (iha (y :: b))
      have h2 := EditScript.insert y ihb
      rcases min_choice (min (levenshteinRef a (y :: b) + 1) (levenshteinRef (x :: a) b + 1))
        (levenshteinRef a b + if x = y then 0 else 1) with h | h
      · rw [h]
        rcases min_choice (levenshteinRef a (y :: b) + 1) (levenshteinRef (x :: a) b + 1) with h' | h'
        · rw [h']; exact h1
        · rw [h']; exact h2
      · rw [h]
        by_cases hxy : x = y
        · subst hxy; simpa using EditScript.keep x (iha b)
        · simpa [hxy] using EditScript.substitute x y (iha b)

theorem levenshteinRef_cons_left_le (x : Nat) (a b : CStr) :
    levenshteinRef (x :: a) b ≤ levenshteinRef a b + 1 := by
  cases b with
  | nil => simp [levenshteinRef_nil_right]
  | cons y b => rw [levenshteinRef_cons_cons]; omega

theorem levenshteinRef_cons_right_le (y : Nat) (a b : CStr) :
    levenshteinRef a (y :: b) ≤ levenshteinRef a b + 1 := by
  cases a with
  | nil => simp [levenshteinRef]
  | cons x a => rw [levenshteinRef_cons_cons]; omega

theorem levenshteinRef_le_of_editScript {a b : CStr} {n : Nat} (h : EditScript a b n) :
    levenshteinRef a b ≤ n := by
  induction h with
  | done => simp [levenshteinRef]
  | delete x _ ih => exact le_trans (levenshteinRef_cons_left_le x _ _) (by omega)
  | insert y _ ih => exact le_trans (levenshteinRef_cons_right_le y _ _) (by omega)
  | keep x _ ih => rw [levenshteinRef_cons_cons]; simp; omega
  | substitute x y _ ih =>
    rw [levenshteinRef_cons_cons]
    have : (if x = y then 0 else 1) ≤ 1 := by split <;> omega
    omega

theorem editScript_delete_last (x : Nat) {a b : CStr} {n : Nat} (h : EditScript a b n) :
    EditScript (a ++ [x]) b (n + 1) := by
  induction h with
  | done => exact EditScript.delete x EditScript.done
  | delete z _ ih => exact EditScript.delete z ih
  | insert z _ ih => exact EditScript.insert z ih
  | keep z _ ih => exact EditScript.keep z ih
  | substitute z w _ ih => exact EditScript.substitute z w ih

theorem editScript_insert_last (y : Nat) {a b : CStr} {n : Nat} (h : EditScript a b n) :
    EditScript a (b ++ [y]) (n + 1) := by
  induction h with
  | done => exact EditScript.insert y EditScript.done
  | delete z _ ih => exact EditScript.delete z ih
  | insert z _ ih => exact EditScript.insert z ih
  | keep z _ ih => exact EditScript.keep z ih
  | substitute z w _ ih => exact EditScript.substitute z w ih

theorem editScript_keep_last (x : Nat) {a b : CStr} {n : Nat} (h : EditScript a b n) :
    EditScript (a ++ [x]) (b ++ [x]) n := by
  induction h with
  | done => exact EditScript.keep x EditScript.done
  | delete z _ ih => exact EditScript.delete z ih
  | insert z _ ih => exact EditScript.insert z ih
  | keep z _ ih => exact EditScript.keep z ih
  | substitute z w _ ih => exact EditScript.substitute z w ih

theorem editScript_substitute_last (x y : Nat) {a b : CStr} {n : Nat} (h : EditScript a b n) :
    EditScript (a ++ [x]) (b ++ [y]) (n + 1) := by
  induction h with
  | done => exact EditScript.substitute x y EditScript.done
  | delete z _ ih => exact EditScript.delete z ih
  | insert z _ ih => exact EditScript.insert z ih
  | keep z _ ih => exact EditScript.keep z ih
  | substitute z w _ ih => exact EditScript.substitute z w ih

theorem editScript_reverse {a b : CStr} {n : Nat} (h : EditScript a b n) :
    EditScript a.reverse b.reverse n := by
  induction h with
  | done => exact EditScript.done
  | delete z _ ih => simpa using editScript_delete_last z ih
  | insert z _ ih => simpa using editScript_insert_last z ih
  | keep z _ ih => simpa using editScript_keep_last z ih
  | substitute z w _ ih => simpa using editScript_substitute_last z w ih

theorem levenshteinRef_reverse (a b : CStr) :
    levenshteinRef a.reverse b.reverse = levenshteinRef a b := by
  apply le_antisymm
  · exact levenshteinRef_le_of_editScript (editScript_reverse (editScript_levenshteinRef a b))
  · have := levenshteinRef_le_of_editScript
      (editScript_reverse (editScript_levenshteinRef a.reverse b.reverse))
    simpa using this

theorem editScript_symm {a b : CStr} {n : Nat} (h : EditScript a b n) : EditScript b a n := by
  induction h with
  | done => exact EditScript.done
  | delete z _ ih => exact EditScript.insert z ih
  | insert z _ ih => exact EditScript.delete z ih
  | keep z _ ih => exact EditScript.keep z ih
  | substitute z w _ ih => exact EditScript.substitute w z ih

theorem levenshteinRef_comm (a b : CStr) : levenshteinRef a b = levenshteinRef b a :=
  le_antisymm
    (levenshteinRef_le_of_editScript (editScript_symm (editScript_levenshteinRef b a)))
    (levenshteinRef_le_of_editScript (editScript_symm (editScript_levenshteinRef a b)))

theorem editScript_length_le {a b : CStr} {n : Nat} (h : EditScript a b n) :
    a.length ≤ b.length + n ∧ b.length ≤ a.length + n := by
  induction h with
  | done => simp
  | delete z _ ih => simp; omega
  | insert z _ ih => simp; omega
  | keep z _ ih => simp; omega
  | substitute z w _ ih => simp; omega

theorem editScript_zero {a b : CStr} {n : Nat} (h : EditScript a b n) (hn : n = 0) : a = b := by
  induction h with
  | done => rfl
  | delete z _ ih => omega
  | insert z _ ih => omega
  | keep z _ ih => rw [ih hn]
  | substitute z w _ ih => omega

theorem editScript_refl (a : CStr) : EditScript a a 0 := by
  induction a with
  | nil => exact EditScript.done
  | cons x a ih => exact EditScript.keep x ih

/-! ## Edit distance: the rolling rows compute the distance matrix -/

theorem getD_set (l : List Nat) (i j v d : Nat) :
    (l.set i v).getD j d = if i = j ∧ i < l.length then v else l.getD j d := by
  simp only [List.getD_eq_getElem?_getD, List.getElem?_set]
  by_cases h : i = j
  · subst h
    by_cases h' : i < l.length
    · simp [h']
    · have : l[i]? = none := by simp; omega
      simp [h', this]
  · simp [h]

theorem foldl_range'_invariant {β : Type} (f : β → Nat → β) (P : Nat → β → Prop) (s n : Nat)
    (b : β) (h0 : P s b)
    (hstep : ∀ k c, s ≤ k → k < s + n → P k c → P (k + 1) (f c k)) :
    P (s + n) ((List.range' s n).foldl f b) := by
  induction n with
  | zero => simpa using h0
  | succ n ih =>
    rw [List.range'_concat, List.foldl_append]
    simp only [List.foldl_cons, List.foldl_nil, one_mul]
    have := ih (fun k c hk hk' hP => hstep k c hk (by omega) hP)
    exact hstep (s + n) _ (by omega) (by omega) this

theorem rowDistance_zero_left (s1 s2 : CStr) (j : Nat) (hj : j ≤ s2.length) :
    rowDistance s1 s2 0 j = j := by
  simp [rowDistance, levenshteinRef, hj]

theorem rowDistance_zero_right (s1 s2 : CStr) (i : Nat) (hi : i ≤ s1.length) :
    rowDistance s1 s2 i 0 = i := by
  simp [rowDistance, levenshteinRef_nil_right, hi]

theorem reverse_take_succ (s : CStr) (i : Nat) (hi : i < s.length) :
    (s.take (i + 1)).reverse = charAt s i :: (s.take i).reverse := by
  rw [List.take_succ]
  simp [charAt, List.getD_eq_getElem?_getD, List.getElem?_eq_getElem hi]

theorem rowDistance_succ_succ (s1 s2 : CStr) (i j : Nat) (hi : i < s1.length)
    (hj : j < s2.length) :
    rowDistance s1 s2 (i + 1) (j + 1) =
      min (min (rowDistance s1 s2 i (j + 1) + 1) (rowDistance s1 s2 (i + 1) j + 1))
        (rowDistance s1 s2 i j + if charAt s1 i = charAt s2 j then 0 else 1) := by
  simp only [rowDistance]
  rw [reverse_take_succ s1 i hi, reverse_take_succ s2 j hj, levenshteinRef_cons_cons]

theorem min3_eq (d ins sub : Nat) :
    (if sub < (if ins < d then ins else d) then sub else (if ins < d then ins else d)) =
      min (min d ins) sub := by
  simp only [Nat.min_def]
  split_ifs <;> omega

theorem editDistanceCell_eq (s1 s2 : CStr) (prev curr : List Nat) (i j : Nat) :
    editDistanceCell s1 s2 prev i curr j =
      curr.set j (min (min (prev.getD j 0 + 1) (curr.getD (j - 1) 0 + 1))
        (prev.getD (j - 1) 0 + if charAt s1 (i - 1) = charAt s2 (j - 1) then 0 else 1)) := by
  simp only [editDistanceCell]
  rw [min3_eq]

theorem initRow_isRow (s1 s2 : CStr) :
    IsRow s1 s2 0 ((List.range (s2.length + 1)).foldl (fun p j => p.set j j)
      (List.replicate (s2.length + 1) 0)) := by
  rw [List.range_eq_range']
  have := foldl_range'_invariant (fun (p : List Nat) j => p.set j j)
    (fun k p => p.length = s2.length + 1 ∧ ∀ j, j < k → p.getD j 0 = j) 0 (s2.length + 1)
    (List.replicate (s2.length + 1) 0) (by simp)
    (by
      intro k c _ hk ⟨hlen, hc⟩
      refine ⟨by simp [hlen], ?_⟩
      intro j hj
      rw [getD_set]
      by_cases h : k = j
      · simp [h, hlen]; omega
      · rw [if_neg (by simp [h])]; exact hc j (by omega))
  refine ⟨this.1, ?_⟩
  intro j hj
  rw [this.2 j (by omega), rowDistance_zero_left s1 s2 j hj]

theorem editDistanceRow_isRow (s1 s2 : CStr) (prev curr : List Nat) (i : Nat)
    (hi1 : 1 ≤ i) (hi : i ≤ s1.length) (hprev : IsRow s1 s2 (i - 1) prev)
    (hcurr : curr.length = s2.length + 1) :
    IsRow s1 s2 i (editDistanceRow s1 s2 prev curr i) := by
  unfold editDistanceRow
  have := foldl_range'_invariant (editDistanceCell s1 s2 prev i)
    (fun k c => c.length = s2.length + 1 ∧ ∀ j, j < k → c.getD j 0 = rowDistance s1 s2 i j)
    1 s2.length (curr.set 0 i)
    (by
      refine ⟨by simp [hcurr], ?_⟩
      intro j hj
      have : j = 0 := by omega
      subst this
      rw [getD_set, rowDistance_zero_right s1 s2 i hi]
      simp [hcurr])
    (by
      intro k c hk1 hk ⟨hlen, hc⟩
      rw [editDistanceCell_eq]
      refine ⟨by simp [hlen], ?_⟩
      intro j hj
      rw [getD_set]
      by_cases h : k = j
      · subst h
        rw [if_pos ⟨rfl, by omega⟩, hprev.2 k (by omega), hprev.2 (k - 1) (by omega),
          hc (k - 1) (by omega)]
        obtain ⟨i', rfl⟩ : ∃ i', i = i' + 1 := ⟨i - 1, by omega⟩
        obtain ⟨k', rfl⟩ : ∃ k', k = k' + 1 := ⟨k - 1, by omega⟩
        simp only [Nat.add_sub_cancel]
        rw [rowDistance_succ_succ s1 s2 i' k' (by omega) (by omega)]
      · rw [if_neg (by simp [h])]; exact hc j (by omega))
  refine ⟨this.1, ?_⟩
  intro j hj
  exact this.2 j (by omega)

theorem copyRow_isRow (s1 s2 : CStr) (prev curr : List Nat) (i : Nat)
    (hprev : prev.length = s2.length + 1) (hcurr : IsRow s1 s2 i curr) :
    IsRow s1 s2 i (copyRow s2.length prev curr) := by
  unfold copyRow
  rw [List.range_eq_range']
  have := foldl_range'_invariant (fun (p : List Nat) j => p.set j (curr.getD j 0))
    (fun k p => p.length = s2.length + 1 ∧ ∀ j, j < k → p.getD j 0 = curr.getD j 0)
    0 (s2.length + 1) prev (by simp [hprev])
    (by
      intro k c _ hk ⟨hlen, hc⟩
      refine ⟨by simp [hlen], ?_⟩
      intro j hj
      rw [getD_set]
      by_cases h : k = j
      · subst h; rw [if_pos ⟨rfl, by omega⟩]
      · rw [if_neg (by simp [h])]; exact hc j (by omega))
  refine ⟨this.1, ?_⟩
  intro j hj
  rw [this.2 j (by omega)]
  exact hcurr.2 j hj

theorem editDistance_eq_rowDistance (s1 s2 : CStr) :
    editDistance s1 s2 = rowDistance s1 s2 s1.length s2.length := by
  unfold editDistance
  have := foldl_range'_invariant
    (fun (st : List Nat × List Nat) i =>
      let curr := editDistanceRow s1 s2 st.1 st.2 i
      (copyRow s2.length st.1 curr, curr))
    (fun k st => IsRow s1 s2 (k - 1) st.1 ∧ st.2.length = s2.length + 1) 1 s1.length
    ((List.range (s2.length + 1)).foldl (fun p j => p.set j j)
      (List.replicate (s2.length + 1) 0), List.replicate (s2.length + 1) 0)
    ⟨initRow_isRow s1 s2, by simp⟩
    (by
      intro k st hk1 hk ⟨hrow, hlen⟩
      have hr := editDistanceRow_isRow s1 s2 st.1 st.2 k hk1 (by omega) hrow hlen
      exact ⟨by simpa using copyRow_isRow s1 s2 st.1 _ k hrow.1 hr, hr.1⟩)
  simp only [Nat.add_sub_cancel_left] at this
  exact this.1.2 s2.length le_rfl

theorem editDistance_eq_levenshteinRef (s1 s2 : CStr) :
    editDistance s1 s2 = levenshteinRef s1 s2 := by
  rw [editDistance_eq_rowDistance]
  simp [rowDistance, levenshteinRef_reverse]

/-- C1: `editDistance a b` is the Levenshtein distance of `a` and `b`: it equals the
recursive reference definition, some script of insertions, deletions and substitutions of
that many steps turns `a` into `b`, and no script does it in fewer steps. -/
theorem editDistance_is_levenshtein (a b : CStr) :
    editDistance a b = levenshteinRef a b ∧ EditScript a b (editDistance a b) ∧
      ∀ n, EditScript a b n → editDistance a b ≤ n := by
  rw [editDistance_eq_levenshteinRef]
  exact ⟨rfl, editScript_levenshteinRef a b, fun n h => levenshteinRef_le_of_editScript h⟩

/-- Instance of C1 on "cta" and "cat": the distance is 2, the two substitutions are a
script, which bounds it from above. -/
theorem editDistance_is_levenshtein_witness :
    EditScript [99, 116, 97] [99, 97, 116] 2 ∧ editDistance [99, 116, 97] [99, 97, 116] ≤ 2 :=
  have h : EditScript [99, 116, 97] [99, 97, 116] 2 :=
    EditScript.keep 99 (EditScript.substitute 116 97 (EditScript.substitute 97 116
      EditScript.done))
  ⟨h, (editDistance_is_levenshtein [99, 116, 97] [99, 97, 116]).2.2 2 h⟩

/-! ## Edit distance: metric facts -/

theorem editDistance_length_le (a b : CStr) :
    a.length ≤ b.length + editDistance a b ∧ b.length ≤ a.length + editDistance a b := by
  rw [editDistance_eq_levenshteinRef]
  exact editScript_length_le (editScript_levenshteinRef a b)

theorem levenshteinRef_le_max (a b : CStr) :
    levenshteinRef a b ≤ max a.length b.length := by
  induction a generalizing b with
  | nil => simp [levenshteinRef]
  | cons x a ih =>
    cases b with
    | nil => simp [levenshteinRef]
    | cons y b =>
      rw [levenshteinRef_cons_cons]
      have h := ih b
      have hc : (if x = y then 0 else 1) ≤ 1 := by split <;> omega
      simp only [List.length_cons]
      omega

theorem editDistance_le_max (a b : CStr) : editDistance a b ≤ max a.length b.length := by
  rw [editDistance_eq_levenshteinRef]
  exact levenshteinRef_le_max a b

theorem rowDistance_le_max (s1 s2 : CStr) (i j : Nat) : rowDistance s1 s2 i j ≤ max i j := by
  have h := levenshteinRef_le_max (s1.take i).reverse (s2.take j).reverse
  simp only [List.length_reverse, List.length_take] at h
  unfold rowDistance
  omega

theorem abs_length_sub_le_editDistance (a b : CStr) :
    |(a.length : Int) - (b.length : Int)| ≤ (editDistance a b : Int) := by
  have h := editDistance_length_le a b
  rw [abs_le]
  omega

theorem editDistance_comm (a b : CStr) : editDistance a b = editDistance b a := by
  rw [editDistance_eq_levenshteinRef, editDistance_eq_levenshteinRef, levenshteinRef_comm]

theorem editDistance_eq_zero_iff (a b : CStr) : editDistance a b = 0 ↔ a = b := by
  rw [editDistance_eq_levenshteinRef]
  constructor
  · intro h
    exact editScript_zero (editScript_levenshteinRef a b) h
  · rintro rfl
    exact Nat.le_zero.mp (levenshteinRef_le_of_editScript (editScript_refl a))

/-- C8: the edit distance is at least the difference of the lengths, so a dictionary word
that the length test of the suggestion loop skips (length difference above the threshold)
is never within the threshold, and a word within the threshold always passes the test and
is appended with its distance. -/
theorem editDistance_ge_length_difference (a b : CStr) :
    |(a.length : Int) - (b.length : Int)| ≤ (editDistance a b : Int) ∧
      (∀ threshold : Int, |(b.length : Int) - (a.length : Int)| > threshold →
        ¬ (editDistance a b : Int) ≤ threshold) ∧
      (∀ (threshold : Int) (dictionary : List CStr) (candidates : List Suggestion) (i : Nat),
        dictionary[i]? = some b → (editDistance a b : Int) ≤ threshold →
          suggestionIteration threshold dictionary a a.length candidates i =
            some (candidates ++ [Suggestion.mk b (editDistance a b)])) := by
  have hab := abs_length_sub_le_editDistance a b
  have hba : |(b.length : Int) - (a.length : Int)| ≤ (editDistance a b : Int) := by
    rw [abs_sub_comm]; exact hab
  refine ⟨hab, fun t ht hd => ?_, ?_⟩
  · omega
  · intro t dictionary candidates i hi hd
    have hlt : i < dictionary.length := by
      by_contra hge
      rw [List.getElem?_eq_none (by omega)] at hi
      exact absurd hi (by simp)
    have hget : dictionary.getD i [] = b := by
      rw [List.getD_eq_getElem?_getD, hi]; rfl
    simp only [suggestionIteration, Int.toNat_ofNat, hget]
    rw [if_pos ⟨by omega, by omega⟩, if_neg (by omega), if_pos hd]

/-- Instance of C8: "cats" is within distance 2 of "cta", it passes the length test and is
appended; "catalogue" (length 9) is more than 2 away from "cta". -/
theorem editDistance_ge_length_difference_witness :
    suggestionIteration 2 [[99, 97, 116, 115]] [99, 116, 97] 3 [] 0 =
        some [Suggestion.mk [99, 97, 116, 115] 2] ∧
      ¬ (editDistance [99, 116, 97] [99, 97, 116, 97, 108, 111, 103, 117, 101] : Int) ≤ 2 :=
  ⟨(editDistance_ge_length_difference [99, 116, 97] [99, 97, 116, 115]).2.2 2
      [[99, 97, 116, 115]] [] 0 (by decide) (by decide),
    (editDistance_ge_length_difference [99, 116, 97]
      [99, 97, 116, 97, 108, 111, 103, 117, 101]).2.1 2 (by decide)⟩

/-- C9: the edit distance is symmetric. -/
theorem editDistance_symmetric (a b : CStr) : editDistance a b = editDistance b a :=
  editDistance_comm a b

/-- C10: the edit distance of two strings is 0 exactly when they are equal; in particular
the distance of a string to itself is 0. -/
theorem editDistance_zero_iff_equal (a b : CStr) :
    (editDistance a b = 0 ↔ a = b) ∧ editDistance a a = 0 :=
  ⟨editDistance_eq_zero_iff a b, (editDistance_eq_zero_iff a a).mpr rfl⟩

/-! ## `strcmp` and the byte-wise lexicographic order -/

theorem strcmp_eq_zero_iff (a b : CStr) : strcmp a b = 0 ↔ a = b := by
  induction a generalizing b with
  | nil => cases b <;> simp [strcmp]
  | cons x a ih =>
    cases b with
    | nil => simp [strcmp]
    | cons y b =>
      simp only [strcmp]
      by_cases h : x = y
      · simp [h, ih]
      · simp only [h, if_false, List.cons.injEq, false_and, iff_false]
        split <;> omega

theorem strcmp_neg_iff (a b : CStr) : strcmp a b < 0 ↔ WordLt a b := by
  unfold WordLt
  induction a generalizing b with
  | nil =>
    cases b with
    | nil => simp [strcmp]
    | cons y b => simp [strcmp, List.Lex.nil]
  | cons x a ih =>
    cases b with
    | nil => simp [strcmp]
    | cons y b =>
      simp only [strcmp]
      by_cases h : x = y
      · subst h
        simp only [if_true, ih]
        constructor
        · intro h'; exact List.Lex.cons h'
        · intro h'
          cases h' with
          | cons h'' => exact h''
          | rel h'' => omega
      · simp only [h, if_false]
        constructor
        · intro h'
          have hxy : x < y := by
            by_contra hc
            rw [if_neg hc] at h'
            omega
          exact List.Lex.rel hxy
        · intro h'
          cases h' with
          | cons h'' => exact absurd rfl h
          | rel h'' => rw [if_pos h'']; omega

theorem strcmp_swap_neg (a b : CStr) : 0 < strcmp a b ↔ strcmp b a < 0 := by
  induction a generalizing b with
  | nil => cases b <;> simp [strcmp]
  | cons x a ih =>
    cases b with
    | nil => simp [strcmp]
    | cons y b =>
      simp only [strcmp]
      by_cases h : x = y
      · subst h; simp [ih]
      · have h' : ¬ y = x := fun e => h e.symm
        simp only [h, h', if_false]
        by_cases hxy : x < y
        · have : ¬ y < x := by omega
          simp [hxy, this]
        · have : y < x := by omega
          simp [hxy, this]

theorem strcmp_pos_iff (a b : CStr) : 0 < strcmp a b ↔ WordLt b a := by
  rw [strcmp_swap_neg, strcmp_neg_iff]

theorem wordLt_irrefl (a : CStr) : ¬ WordLt a a := by
  intro h
  have := (strcmp_neg_iff a a).mpr h
  rw [(strcmp_eq_zero_iff a a).mpr rfl] at this
  omega

theorem wordLt_trans {a b c : CStr} (hab : WordLt a b) (hbc : WordLt b c) : WordLt a c := by
  unfold WordLt at *
  induction hab generalizing c with
  | nil => cases hbc <;> exact List.Lex.nil
  | cons _ ih =>
    cases hbc with
    | cons h' => exact List.Lex.cons (ih h')
    | rel h' => exact List.Lex.rel h'
  | rel h =>
    cases hbc with
    | cons h' => exact List.Lex.rel h
    | rel h' => exact List.Lex.rel (lt_trans h h')

theorem wordLt_asymm {a b : CStr} (hab : WordLt a b) : ¬ WordLt b a :=
  fun hba => wordLt_irrefl a (wordLt_trans hab hba)

theorem wordLt_trichotomy (a b : CStr) : WordLt a b ∨ a = b ∨ WordLt b a := by
  rcases lt_trichotomy (strcmp a b) 0 with h | h | h
  · exact Or.inl ((strcmp_neg_iff a b).mp h)
  · exact Or.inr (Or.inl ((strcmp_eq_zero_iff a b).mp h))
  · exact Or.inr (Or.inr ((strcmp_pos_iff a b).mp h))

/-! ## Binary search -/

theorem getD_mem (dictionary : List CStr) (k : Nat) (hk : k < dictionary.length) :
    dictionary.getD k [] ∈ dictionary := by
  rw [List.getD_eq_getElem _ _ hk]
  exact List.getElem_mem hk

theorem dictSorted_getD {dictionary : List CStr} (hs : DictSorted dictionary) {i j : Nat}
    (hij : i < j) (hj : j < dictionary.length) :
    dictionary.getD i [] = dictionary.getD j [] ∨
      WordLt (dictionary.getD i []) (dictionary.getD j []) := by
  rw [List.getD_eq_getElem _ _ hj, List.getD_eq_getElem _ _ (lt_trans hij hj)]
  exact (List.pairwise_iff_getElem.mp hs) i j (lt_trans hij hj) hj hij

theorem isWordInDictionaryLoop_step (dictionary : List CStr) (word : CStr) (fuel : Nat)
    (low high : Int) (hlh : low ≤ high) (h0 : 0 ≤ low) (hn : high < (dictionary.length : Int))
    (hmax : dictionary.length ≤ MAX_DICT_WORDS) :
    0 ≤ (low + high) / 2 ∧ low ≤ (low + high) / 2 ∧ (low + high) / 2 ≤ high ∧
    isWordInDictionaryLoop dictionary word (fuel + 1) low high =
      if strcmp word (dictionary.getD ((low + high) / 2).toNat []) = 0 then some 1
      else if strcmp word (dictionary.getD ((low + high) / 2).toNat []) < 0 then
        isWordInDictionaryLoop dictionary word fuel low ((low + high) / 2 - 1)
      else isWordInDictionaryLoop dictionary word fuel ((low + high) / 2 + 1) high := by
  have hmax' : (dictionary.length : Int) ≤ 466600 := by
    have : dictionary.length ≤ 466600 := hmax
    omega
  have hsum : checkInt32 (low + high) = some (low + high) := by
    simp only [checkInt32, INT_MIN, INT_MAX]
    rw [if_pos ⟨by omega, by omega⟩]
  have hmid : Int.tdiv (low + high) 2 = (low + high) / 2 :=
    Int.tdiv_eq_ediv (by omega) (by omega)
  refine ⟨by omega, by omega, by omega, ?_⟩
  rw [isWordInDictionaryLoop, if_pos hlh, hsum]
  simp only [hmid]
  rw [if_pos ⟨by omega, by omega⟩]

theorem isWordInDictionaryLoop_total (dictionary : List CStr) (word : CStr)
    (hmax : dictionary.length ≤ MAX_DICT_WORDS) :
    ∀ (fuel : Nat) (low high : Int), 0 ≤ low → high < (dictionary.length : Int) →
      0 < fuel → high + 1 - low < (fuel : Int) →
      (isWordInDictionaryLoop dictionary word fuel low high = some 0 ∨
        (isWordInDictionaryLoop dictionary word fuel low high = some 1 ∧ word ∈ dictionary)) := by
  intro fuel
  induction fuel with
  | zero => intro low high h0 hn hpos hf; omega
  | succ fuel ih =>
    intro low high h0 hn _ hf
    by_cases hlh : low ≤ high
    · obtain ⟨hm0, hm1, hm2, heq⟩ :=
        isWordInDictionaryLoop_step dictionary word fuel low high hlh h0 hn hmax
      rw [heq]
      by_cases hc : strcmp word (dictionary.getD ((low + high) / 2).toNat []) = 0
      · rw [if_pos hc]
        right
        refine ⟨rfl, ?_⟩
        rw [(strcmp_eq_zero_iff _ _).mp hc]
        exact getD_mem dictionary _ (by omega)
      · rw [if_neg hc]
        split
        · exact ih low _ h0 (by omega) (by omega) (by omega)
        · exact ih _ high (by omega) hn (by omega) (by omega)
    · left
      rw [isWordInDictionaryLoop, if_neg hlh]

theorem isWordInDictionaryLoop_sorted (dictionary : List CStr) (word : CStr)
    (hs : DictSorted dictionary) (hmax : dictionary.length ≤ MAX_DICT_WORDS) :
    ∀ (fuel : Nat) (low high : Int), 0 ≤ low → high < (dictionary.length : Int) →
      0 < fuel → high + 1 - low < (fuel : Int) →
      (∀ k : Nat, (k : Int) < low → k < dictionary.length → WordLt (dictionary.getD k []) word) →
      (∀ k : Nat, high < (k : Int) → k < dictionary.length →
        WordLt word (dictionary.getD k [])) →
      isWordInDictionaryLoop dictionary word fuel low high =
        some (if word ∈ dictionary then 1 else 0) := by
  intro fuel
  induction fuel with
  | zero => intro low high h0 hn hpos hf; omega
  | succ fuel ih =>
    intro low high h0 hn _ hf hlow hhigh
    by_cases hlh : low ≤ high
    · obtain ⟨hm0, hm1, hm2, heq⟩ :=
        isWordInDictionaryLoop_step dictionary word fuel low high hlh h0 hn hmax
      rw [heq]
      have hmidlt : ((low + high) / 2).toNat < dictionary.length := by omega
      by_cases hc : strcmp word (dictionary.getD ((low + high) / 2).toNat []) = 0
      · rw [if_pos hc]
        have : word ∈ dictionary := by
          rw [(strcmp_eq_zero_iff _ _).mp hc]
          exact getD_mem dictionary _ hmidlt
        rw [if_pos this]
      · rw [if_neg hc]
        by_cases hneg : strcmp word (dictionary.getD ((low + high) / 2).toNat []) < 0
        · rw [if_pos hneg]
          have hlt := (strcmp_neg_iff _ _).mp hneg
          refine ih low _ h0 (by omega) (by omega) (by omega) hlow ?_
          intro k hk hkn
          by_cases hkm : k = ((low + high) / 2).toNat
          · rw [hkm]; exact hlt
          · rcases dictSorted_getD hs (show ((low + high) / 2).toNat < k by omega) hkn with h | h
            · rw [← h]; exact hlt
            · exact wordLt_trans hlt h
        · rw [if_neg hneg]
          have hpos : 0 < strcmp word (dictionary.getD ((low + high) / 2).toNat []) := by
            omega
          have hgt := (strcmp_pos_iff _ _).mp hpos
          refine ih _ high (by omega) hn (by omega) (by omega) ?_ hhigh
          intro k hk hkn
          by_cases hkm : k = ((low + high) / 2).toNat
          · rw [hkm]; exact hgt
          · rcases dictSorted_getD hs (show k < ((low + high) / 2).toNat by omega) hmidlt
              with h | h
            · rw [h]; exact hgt
            · exact wordLt_trans h hgt
    · rw [isWordInDictionaryLoop, if_neg hlh]
      have : word ∉ dictionary := by
        intro hmem
        obtain ⟨k, hk, hkw⟩ := List.getElem_of_mem hmem
        have hkd : dictionary.getD k [] = word := by rw [List.getD_eq_getElem _ _ hk, hkw]
        by_cases hkl : (k : Int) < low
        · have := hlow k hkl hk
          rw [hkd] at this
          exact wordLt_irrefl _ this
        · have := hhigh k (by omega) hk
          rw [hkd] at this
          exact wordLt_irrefl _ this
      rw [if_neg this]

theorem isWordInDictionary_total (dictionary : List CStr) (word : CStr)
    (hmax : dictionary.length ≤ MAX_DICT_WORDS) :
    isWordInDictionary dictionary word = some 0 ∨
      (isWordInDictionary dictionary word = some 1 ∧ word ∈ dictionary) :=
  isWordInDictionaryLoop_total dictionary word hmax _ _ _ (by omega) (by omega)
    (by omega) (by push_cast; omega)

theorem isWordInDictionary_sorted (dictionary : List CStr) (word : CStr)
    (hs : DictSorted dictionary) (hmax : dictionary.length ≤ MAX_DICT_WORDS) :
    isWordInDictionary dictionary word = some (if word ∈ dictionary then 1 else 0) :=
  isWordInDictionaryLoop_sorted dictionary word hs hmax _ _ _ (by omega) (by omega)
    (by omega) (by push_cast; omega) (fun k hk _ => by omega) (fun k hk hkn => by omega)

/-- C2: on a dictionary array sorted ascending in byte-wise lexicographic order (duplicates
allowed, any size the array admits, 0 included) `isWordInDictionary` returns 1 exactly when
the word equals some entry, and 0 otherwise. -/
theorem isWordInDictionary_correct (dictionary : List CStr) (word : CStr)
    (hs : DictSorted dictionary) (hmax : dictionary.length ≤ MAX_DICT_WORDS) :
    (isWordInDictionary dictionary word = some 1 ↔ word ∈ dictionary) ∧
      (isWordInDictionary dictionary word = some 0 ↔ word ∉ dictionary) ∧
      (dictionary = [] → isWordInDictionary dictionary word = some 0) := by
  have h := isWordInDictionary_sorted dictionary word hs hmax
  by_cases hm : word ∈ dictionary
  · rw [if_pos hm] at h
    refine ⟨by simp [h, hm], by simp [h, hm], ?_⟩
    rintro rfl
    simp at hm
  · rw [if_neg hm] at h
    exact ⟨by simp [h, hm], by simp [h, hm], fun _ => h⟩

/-- Instance of C2: "dog" is found in the sorted dictionary "cat", "cat", "cats", "dog" (one
duplicate), "cta" is not. -/
theorem isWordInDictionary_correct_witness :
    isWordInDictionary [[99, 97, 116], [99, 97, 116], [99, 97, 116, 115], [100, 111, 103]]
        [100, 111, 103] = some 1 ∧
      isWordInDictionary [[99, 97, 116], [99, 97, 116], [99, 97, 116, 115], [100, 111, 103]]
        [99, 116, 97] = some 0 :=
  ⟨(isWordInDictionary_correct
      [[99, 97, 116], [99, 97, 116], [99, 97, 116, 115], [100, 111, 103]] [100, 111, 103]
      (by decide) (by decide)).1.mpr (by decide),
    (isWordInDictionary_correct
      [[99, 97, 116], [99, 97, 116], [99, 97, 116, 115], [100, 111, 103]] [99, 116, 97]
      (by decide) (by decide)).2.1.mpr (by decide)⟩

/-! ## Index ranges and the partitioning loop -/

theorem forRange_empty (a b : Int) (h : b < a) : forRange a b = [] := by
  have : (b + 1 - a).toNat = 0 := by omega
  simp [forRange, this]

theorem forRange_cons (a b : Int) (h : a ≤ b) : forRange a b = a :: forRange (a + 1) b := by
  obtain ⟨n, hn⟩ : ∃ n : Nat, (b + 1 - (a + 1)).toNat = n := ⟨_, rfl⟩
  have h1 : (b + 1 - a).toNat = n + 1 := by omega
  unfold forRange
  rw [h1, hn, List.range_succ_eq_map]
  simp only [List.map_cons, List.map_map]
  refine congrArg₂ _ (by simp) ?_
  apply List.map_congr_left
  intro k _
  simp only [Function.comp, Nat.succ_eq_add_one, Nat.cast_add, Nat.cast_one]
  omega

theorem mem_forRange (a b x : Int) : x ∈ forRange a b ↔ a ≤ x ∧ x ≤ b := by
  simp only [forRange, List.mem_map, List.mem_range]
  constructor
  · rintro ⟨k, hk, rfl⟩
    omega
  · rintro ⟨h1, h2⟩
    exact ⟨(x - a).toNat, by omega, by omega⟩

theorem forRange_append (a b c : Int) (hab : a ≤ b + 1) (hbc : b ≤ c) :
    forRange a b ++ forRange (b + 1) c = forRange a c := by
  obtain ⟨n, hn⟩ : ∃ n : Nat, (n : Int) = b + 1 - a := ⟨(b + 1 - a).toNat, by omega⟩
  induction n generalizing a with
  | zero => rw [forRange_empty a b (by omega)]; simp; congr 1; omega
  | succ n ih =>
    rw [forRange_cons a b (by omega), forRange_cons a c (by omega), List.cons_append,
      ih (a + 1) (by omega) (by push_cast at hn; omega)]

theorem forRange_append_of_eq (a b b' c : Int) (hb : b' = b + 1) (hab : a ≤ b')
    (hbc : b ≤ c) : forRange a b ++ forRange b' c = forRange a c := by
  subst hb
  exact forRange_append a b c hab hbc

theorem forRange_zero (n : Nat) :
    forRange 0 ((n : Int) - 1) = (List.range n).map (fun (k : Nat) => (k : Int)) := by
  have : ((n : Int) - 1 + 1 - 0).toNat = n := by omega
  simp [forRange, this]

theorem nodup_forRange (a b : Int) : (forRange a b).Nodup := by
  have hinj : Function.Injective (fun (k : Nat) => a + (k : Int)) := by
    intro x y h
    simpa using h
  exact (List.nodup_range _).map hinj

theorem partitionLoop_succ_pos (chunk : Int) (k : Nat) (start remainder : Int)
    (h : remainder > 0) :
    partitionLoop chunk (k + 1) start remainder =
      ThreadRange.mk start (start + chunk) ::
        partitionLoop chunk k (start + chunk + 1) (remainder - 1) := by
  have e1 : start + chunk - 1 + 1 = start + chunk := by omega
  simp only [partitionLoop, if_pos h, e1]

theorem partitionLoop_succ_zero (chunk : Int) (k : Nat) (start remainder : Int)
    (h : ¬ remainder > 0) :
    partitionLoop chunk (k + 1) start remainder =
      ThreadRange.mk start (start + chunk - 1) ::
        partitionLoop chunk k (start + chunk) remainder := by
  have e1 : start + chunk - 1 + 1 = start + chunk := by omega
  simp only [partitionLoop, if_neg h, e1]

theorem partitionLoop_spec (chunk : Int) (hc : 0 ≤ chunk) :
    ∀ (k : Nat) (start remainder : Int), 0 ≤ remainder → remainder ≤ k →
      (partitionLoop chunk k start remainder).length = k ∧
      assignedIndices (partitionLoop chunk k start remainder) =
        forRange start (start + k * chunk + remainder - 1) ∧
      (∀ s0 : Int, List.Chain (fun p q : ThreadRange => q.start = p.end_ + 1)
        (ThreadRange.mk s0 (start - 1)) (partitionLoop chunk k start remainder)) ∧
      (∀ p ∈ partitionLoop chunk k start remainder, p.start ≤ p.end_ + 1) ∧
      (((partitionLoop chunk k start remainder).getLast?.map (fun p => p.end_)).getD
        (start - 1) = start + k * chunk + remainder - 1) := by
  intro k
  induction k with
  | zero =>
    intro start remainder h0 hk
    have : remainder = 0 := by omega
    subst this
    simp [partitionLoop, assignedIndices, forRange_empty]
  | succ k ih =>
    intro start remainder h0 hk
    have hmul : ((k + 1 : Nat) : Int) * chunk = k * chunk + chunk := by push_cast; ring
    have hkc : 0 ≤ (k : Int) * chunk := mul_nonneg (by omega) hc
    rw [hmul]
    by_cases hr : remainder > 0
    · obtain ⟨h1, h2, h3, h4, h5⟩ :=
        ih (start + chunk + 1) (remainder - 1) (by omega) (by push_cast at hk; omega)
      rw [partitionLoop_succ_pos chunk k start remainder hr]
      refine ⟨by simp [h1], ?_, ?_, ?_, ?_⟩
      · simp only [assignedIndices, List.map_cons, List.flatten_cons] at h2 ⊢
        rw [h2, forRange_append_of_eq start (start + chunk) (start + chunk + 1)
          (start + chunk + 1 + ↑k * chunk + (remainder - 1) - 1) rfl (by omega) (by omega)]
        congr 1
        omega
      · intro s0
        refine List.Chain.cons (by simp) ?_
        have := h3 start
        rw [show start + chunk + 1 - 1 = start + chunk by omega] at this
        exact this
      · intro p hp
        rcases List.mem_cons.mp hp with rfl | hp
        · show start ≤ start + chunk + 1
          omega
        · exact h4 p hp
      · rw [List.getLast?_cons]
        cases hl : (partitionLoop chunk k (start + chunk + 1) (remainder - 1)).getLast? with
        | none =>
          rw [hl] at h5
          simp only [Option.map_none', Option.getD_none] at h5
          simp only [Option.getD_none, Option.map_some', Option.getD_some]
          omega
        | some p =>
          rw [hl] at h5
          simp only [Option.map_some', Option.getD_some] at h5 ⊢
          omega
    · obtain ⟨h1, h2, h3, h4, h5⟩ :=
        ih (start + chunk) remainder h0 (by push_cast at hk; omega)
      rw [partitionLoop_succ_zero chunk k start remainder hr]
      refine ⟨by simp [h1], ?_, ?_, ?_, ?_⟩
      · simp only [assignedIndices, List.map_cons, List.flatten_cons] at h2 ⊢
        rw [h2, forRange_append_of_eq start (start + chunk - 1) (start + chunk)
          (start + chunk + ↑k * chunk + remainder - 1) (by omega) (by omega) (by omega)]
        congr 1
        omega
      · intro s0
        exact List.Chain.cons (by simp) (h3 start)
      · intro p hp
        rcases List.mem_cons.mp hp with rfl | hp
        · show start ≤ start + chunk - 1 + 1
          omega
        · exact h4 p hp
      · rw [List.getLast?_cons]
        cases hl : (partitionLoop chunk k (start + chunk) remainder).getLast? with
        | none =>
          rw [hl] at h5
          simp only [Option.map_none', Option.getD_none] at h5
          simp only [Option.getD_none, Option.map_some', Option.getD_some]
          omega
        | some p =>
          rw [hl] at h5
          simp only [Option.map_some', Option.getD_some] at h5 ⊢
          omega

theorem partition_spec (count numThreads : Nat) (hT : 1 ≤ numThreads) :
    (partition count numThreads).length = numThreads ∧
    assignedIndices (partition count numThreads) = forRange 0 ((count : Int) - 1) ∧
    List.Chain' (fun p q : ThreadRange => q.start = p.end_ + 1) (partition count numThreads) ∧
    (∀ p ∈ partition count numThreads, p.start ≤ p.end_ + 1) ∧
    (partition count numThreads).head?.map (fun p => p.start) = some 0 ∧
    (partition count numThreads).getLast?.map (fun p => p.end_) = some ((count : Int) - 1) := by
  have hc0 : (0 : Int) ≤ (count : Int) := Int.natCast_nonneg _
  have hT0 : (0 : Int) ≤ (numThreads : Int) := Int.natCast_nonneg _
  have hdiv : Int.tdiv count numThreads = (count : Int) / numThreads :=
    Int.tdiv_eq_ediv hc0 hT0
  have hmod : Int.tmod count numThreads = (count : Int) % numThreads :=
    Int.tmod_eq_emod hc0 hT0
  have hTpos : (0 : Int) < numThreads := by omega
  have hc : 0 ≤ (count : Int) / numThreads := Int.ediv_nonneg hc0 hT0
  have hr0 : 0 ≤ (count : Int) % numThreads := Int.emod_nonneg _ (by omega)
  have hrT : (count : Int) % numThreads < numThreads := Int.emod_lt_of_pos _ hTpos
  have hsum : (numThreads : Int) * ((count : Int) / numThreads) + (count : Int) % numThreads
      = count := Int.ediv_add_emod _ _
  obtain ⟨h1, h2, h3, h4, h5⟩ := partitionLoop_spec _ hc numThreads 0 _ hr0 (le_of_lt hrT)
  have hend : (0 : Int) + numThreads * ((count : Int) / numThreads) + (count : Int) % numThreads
      - 1 = count - 1 := by omega
  unfold partition
  rw [hdiv, hmod]
  rw [hend] at h2 h5
  refine ⟨h1, h2, ?_, h4, ?_, ?_⟩
  · cases hp : partitionLoop ((count : Int) / numThreads) numThreads 0
        ((count : Int) % numThreads) with
    | nil => exact List.chain'_nil
    | cons p l =>
      have := h3 0
      rw [hp] at this
      cases this with
      | cons _ h => exact h
  · obtain ⟨k, rfl⟩ : ∃ k, numThreads = k + 1 := ⟨numThreads - 1, by omega⟩
    simp only [partitionLoop]
    split <;> simp
  · cases hp : (partitionLoop ((count : Int) / numThreads) numThreads 0
        ((count : Int) % numThreads)).getLast? with
    | none =>
      rw [List.getLast?_eq_none_iff] at hp
      rw [hp] at h1
      simp at h1
      omega
    | some p =>
      rw [hp] at h5
      simpa using h5

/-- C5: for `count` items and `numThreads >= 1` workers the partitioning loop yields one
range per worker; read in worker order the ranges list the indices `0, 1, .., count - 1`,
each exactly once and nothing else; consecutive ranges are adjacent (the next `start` is the
previous `end + 1`), no range has negative size, the first starts at 0 and the last ends at
`count - 1`. -/
theorem partition_assigns_each_index_once (count numThreads : Nat) (hT : 1 ≤ numThreads) :
    (partition count numThreads).length = numThreads ∧
    assignedIndices (partition count numThreads) =
      (List.range count).map (fun (k : Nat) => (k : Int)) ∧
    (∀ i : Int, (assignedIndices (partition count numThreads)).count i =
      if 0 ≤ i ∧ i < (count : Int) then 1 else 0) ∧
    List.Chain' (fun p q : ThreadRange => q.start = p.end_ + 1) (partition count numThreads) ∧
    (∀ p ∈ partition count numThreads, p.start ≤ p.end_ + 1) ∧
    (partition count numThreads).head?.map (fun p => p.start) = some 0 ∧
    (partition count numThreads).getLast?.map (fun p => p.end_) = some ((count : Int) - 1) := by
  obtain ⟨h1, h2, h3, h4, h5, h6⟩ := partition_spec count numThreads hT
  refine ⟨h1, by rw [h2, forRange_zero], ?_, h3, h4, h5, h6⟩
  intro i
  rw [h2, List.count_eq_of_nodup (nodup_forRange _ _)]
  simp only [mem_forRange]
  by_cases h : 0 ≤ i ∧ i < (count : Int)
  · rw [if_pos h, if_pos ⟨h.1, by omega⟩]
  · rw [if_neg h, if_neg (fun h' => h ⟨h'.1, by omega⟩)]

/-- Instance of C5 with fewer items than workers: 3 items, 8 workers. -/
theorem partition_assigns_each_index_once_witness :
    1 ≤ 8 ∧ assignedIndices (partition 3 8) = [0, 1, 2] ∧
      (partition 3 8).getLast?.map (fun p => p.end_) = some 2 :=
  ⟨by decide, (partition_assigns_each_index_once 3 8 (by decide)).2.1,
    (partition_assigns_each_index_once 3 8 (by decide)).2.2.2.2.2.2⟩

/-! ## The suggestion scan -/

theorem map_getD_range (l : List CStr) :
    (List.range l.length).map (fun (k : Nat) => l.getD k []) = l := by
  apply List.ext_getElem
  · simp
  · intro i h1 h2
    simp [List.getD_eq_getElem?_getD, List.getElem?_eq_getElem h2]

theorem suggestionIteration_eq (threshold : Int) (dictionary : List CStr) (word : CStr)
    (candidates : List Suggestion) (i : Int) (h0 : 0 ≤ i) (hn : i < (dictionary.length : Int)) :
    suggestionIteration threshold dictionary word word.length candidates i =
      some (candidates ++ (candidateOf threshold word (dictionary.getD i.toNat [])).toList) := by
  have hlen := abs_length_sub_le_editDistance (dictionary.getD i.toNat []) word
  rw [editDistance_comm] at hlen
  simp only [suggestionIteration, candidateOf]
  rw [if_pos ⟨h0, hn⟩]
  by_cases hd : (editDistance word (dictionary.getD i.toNat []) : Int) ≤ threshold
  · rw [if_neg (by omega), if_pos hd, if_pos hd]
    rfl
  · rw [if_neg hd]
    split <;> simp

theorem foldlM_suggestionIteration (threshold : Int) (dictionary : List CStr) (word : CStr)
    (indices : List Int) (hv : ∀ i ∈ indices, 0 ≤ i ∧ i < (dictionary.length : Int)) :
    ∀ candidates : List Suggestion,
      indices.foldlM (suggestionIteration threshold dictionary word word.length) candidates =
        some (candidates ++ indices.filterMap
          (fun i => candidateOf threshold word (dictionary.getD i.toNat []))) := by
  induction indices with
  | nil => intro candidates; simp
  | cons i rest ih =>
    intro candidates
    have hi := hv i (List.mem_cons_self _ _)
    rw [List.foldlM_cons, suggestionIteration_eq _ _ _ _ _ hi.1 hi.2]
    simp only [Option.bind_eq_bind, Option.some_bind]
    rw [ih (fun j hj => hv j (List.mem_cons_of_mem _ hj)), List.filterMap_cons]
    cases candidateOf threshold word (dictionary.getD i.toNat []) <;> simp

theorem mapM_option_eq_some {α β : Type} (f : α → Option β) (g : α → β) :
    ∀ l : List α, (∀ x ∈ l, f x = some (g x)) → l.mapM f = some (l.map g) := by
  intro l
  induction l with
  | nil => intro _; rfl
  | cons x l ih =>
    intro h
    rw [List.mapM_cons, h x (List.mem_cons_self _ _), ih (fun y hy => h y (List.mem_cons_of_mem _ hy))]
    rfl

theorem filterMap_flatten {α β : Type} (f : α → Option β) (ls : List (List α)) :
    (ls.map (List.filterMap f)).flatten = ls.flatten.filterMap f := by
  induction ls with
  | nil => rfl
  | cons l ls ih =>
    rw [List.map_cons, List.flatten_cons, List.flatten_cons, List.filterMap_append, ih]

theorem filterMap_indices (threshold : Int) (dictionary : List CStr) (word : CStr) :
    ((List.range dictionary.length).map (fun (k : Nat) => (k : Int))).filterMap
      (fun i => candidateOf threshold word (dictionary.getD i.toNat [])) =
      expectedCandidates threshold dictionary word := by
  rw [List.filterMap_map]
  have : ((fun i : Int => candidateOf threshold word (dictionary.getD i.toNat [])) ∘
      fun (k : Nat) => (k : Int)) =
      (candidateOf threshold word) ∘ (fun (k : Nat) => dictionary.getD k []) := by
    funext k
    simp
  rw [this, ← List.filterMap_map, map_getD_range]
  rfl

theorem mem_partition_range (count numThreads : Nat) (hT : 1 ≤ numThreads) (d : ThreadRange)
    (hd : d ∈ partition count numThreads) (i : Int) (hi : i ∈ forRange d.start d.end_) :
    0 ≤ i ∧ i < (count : Int) := by
  have h2 := (partition_spec count numThreads hT).2.1
  have : i ∈ assignedIndices (partition count numThreads) := by
    simp only [assignedIndices, List.mem_flatten, List.mem_map]
    exact ⟨_, ⟨d, hd, rfl⟩, hi⟩
  rw [h2, mem_forRange] at this
  omega

theorem candidateBuffers_eq (numThreads : Nat) (hT : 1 ≤ numThreads) (threshold : Int)
    (dictionary : List CStr) (word : CStr) :
    Pthread.candidateBuffers numThreads threshold dictionary word =
      some ((partition dictionary.length numThreads).map (fun d =>
        (forRange d.start d.end_).filterMap
          (fun i => candidateOf threshold word (dictionary.getD i.toNat [])))) := by
  unfold Pthread.candidateBuffers
  apply mapM_option_eq_some
  intro d hd
  unfold suggestionThread
  rw [foldlM_suggestionIteration _ _ _ _
    (fun i hi => mem_partition_range _ _ hT d hd i hi)]
  simp

theorem mergedCandidates_eq (numThreads : Nat) (hT : 1 ≤ numThreads) (threshold : Int)
    (dictionary : List CStr) (word : CStr) :
    Pthread.mergedCandidates numThreads threshold dictionary word =
      some (expectedCandidates threshold dictionary word) := by
  unfold Pthread.mergedCandidates
  rw [candidateBuffers_eq _ hT]
  simp only [Option.map_some', Option.some.injEq]
  have := filterMap_flatten (fun i => candidateOf threshold word (dictionary.getD i.toNat []))
    ((partition dictionary.length numThreads).map (fun d => forRange d.start d.end_))
  rw [List.map_map] at this
  have h2 := (partition_spec dictionary.length numThreads hT).2.1
  unfold assignedIndices at h2
  rw [h2, forRange_zero, filterMap_indices] at this
  rw [← this]
  rfl

theorem collectedCandidates_eq (threshold : Int) (dictionary : List CStr) (word : CStr)
    (order : List Int)
    (hp : order.Perm ((List.range dictionary.length).map (fun (k : Nat) => (k : Int)))) :
    ∃ candidates, Omp.collectedCandidates threshold dictionary word order = some candidates ∧
      candidates.Perm (expectedCandidates threshold dictionary word) := by
  have hv : ∀ i ∈ order, 0 ≤ i ∧ i < (dictionary.length : Int) := by
    intro i hi
    have := hp.subset hi
    simp only [List.mem_map, List.mem_range] at this
    obtain ⟨k, hk, rfl⟩ := this
    omega
  refine ⟨order.filterMap (fun i => candidateOf threshold word (dictionary.getD i.toNat [])),
    ?_, ?_⟩
  · unfold Omp.collectedCandidates
    rw [foldlM_suggestionIteration _ _ _ _ hv, List.nil_append]
  · rw [← filterMap_indices]
    exact hp.filterMap _

theorem expectedCandidates_words (threshold : Int) (dictionary : List CStr) (word : CStr) :
    (expectedCandidates threshold dictionary word).map Suggestion.word =
      dictionary.filter (fun entry => decide ((editDistance word entry : Int) ≤ threshold)) := by
  unfold expectedCandidates
  induction dictionary with
  | nil => rfl
  | cons e l ih =>
    rw [List.filterMap_cons, List.filter_cons]
    by_cases h : (editDistance word e : Int) ≤ threshold
    · simp [candidateOf, h, ih]
    · simp [candidateOf, h, ih]

theorem expectedCandidates_distance (threshold : Int) (dictionary : List CStr) (word : CStr)
    (s : Suggestion) (hs : s ∈ expectedCandidates threshold dictionary word) :
    s.distance = (editDistance word s.word : Int) ∧ s.distance ≤ threshold ∧
      s.word ∈ dictionary := by
  unfold expectedCandidates at hs
  rw [List.mem_filterMap] at hs
  obtain ⟨e, he, hc⟩ := hs
  unfold candidateOf at hc
  split at hc
  · cases hc
    exact ⟨rfl, by assumption, he⟩
  · cases hc

/-- C3: for every word, dictionary, threshold and worker count the suggestion threads
together, and the OpenMP loop under every commit order, collect exactly the dictionary
entries within the threshold, one candidate per dictionary index (in index order for the
threads, in some order for OpenMP), each carrying its true edit distance; no entry within the
threshold is dropped by the length test. -/
theorem suggestion_scan_collects_exactly (numThreads : Nat) (hT : 1 ≤ numThreads)
    (threshold : Int) (dictionary : List CStr) (word : CStr) :
    (∃ merged, Pthread.mergedCandidates numThreads threshold dictionary word = some merged ∧
      merged = expectedCandidates threshold dictionary word ∧
      merged.map Suggestion.word =
        dictionary.filter (fun entry => decide ((editDistance word entry : Int) ≤ threshold)) ∧
      ∀ s ∈ merged, s.distance = (editDistance word s.word : Int) ∧ s.distance ≤ threshold) ∧
    (∀ order : List Int,
      order.Perm ((List.range dictionary.length).map (fun (k : Nat) => (k : Int))) →
      ∃ candidates, Omp.collectedCandidates threshold dictionary word order = some candidates ∧
        candidates.Perm (expectedCandidates threshold dictionary word) ∧
        (candidates.map Suggestion.word).Perm
          (dictionary.filter
            (fun entry => decide ((editDistance word entry : Int) ≤ threshold))) ∧
        ∀ s ∈ candidates,
          s.distance = (editDistance word s.word : Int) ∧ s.distance ≤ threshold) := by
  constructor
  · refine ⟨_, mergedCandidates_eq numThreads hT threshold dictionary word, rfl,
      expectedCandidates_words threshold dictionary word, ?_⟩
    intro s hs
    have := expectedCandidates_distance threshold dictionary word s hs
    exact ⟨this.1, this.2.1⟩
  · intro order hp
    obtain ⟨candidates, hc, hperm⟩ := collectedCandidates_eq threshold dictionary word order hp
    refine ⟨candidates, hc, hperm, ?_, ?_⟩
    · rw [← expectedCandidates_words]
      exact hperm.map _
    · intro s hs
      have := expectedCandidates_distance threshold dictionary word s (hperm.subset hs)
      exact ⟨this.1, this.2.1⟩

/-- Instance of C3: dictionary "cat", "cats", "dog", word "cta", threshold 2, 8 threads; the
OpenMP iterations commit in the order 2, 0, 1. -/
theorem suggestion_scan_collects_exactly_witness :
    (∃ merged,
      Pthread.mergedCandidates 8 2 [[99, 97, 116], [99, 97, 116, 115], [100, 111, 103]]
        [99, 116, 97] = some merged ∧
      merged.map Suggestion.word = [[99, 97, 116], [99, 97, 116, 115]]) ∧
    (∃ candidates,
      Omp.collectedCandidates 2 [[99, 97, 116], [99, 97, 116, 115], [100, 111, 103]]
        [99, 116, 97] [2, 0, 1] = some candidates ∧
      (candidates.map Suggestion.word).Perm [[99, 97, 116], [99, 97, 116, 115]]) :=
  have h := suggestion_scan_collects_exactly 8 (by decide) 2
    [[99, 97, 116], [99, 97, 116, 115], [100, 111, 103]] [99, 116, 97]
  ⟨h.1.elim fun merged hm => ⟨merged, hm.1, hm.2.2.1.trans (by decide)⟩,
    (h.2 [2, 0, 1] (by decide)).elim fun candidates hc =>
      ⟨candidates, hc.1, hc.2.2.1.trans (by decide)⟩⟩

/-! ## Ranking: `cmpSuggestion`, `qsort`, truncation -/

theorem strcmp_le_iff (a b : CStr) : strcmp a b ≤ 0 ↔ (a = b ∨ WordLt a b) := by
  rw [← strcmp_eq_zero_iff, ← strcmp_neg_iff]
  omega

theorem cmpSuggestion_le_iff (x y : Suggestion) : cmpSuggestion x y ≤ 0 ↔ SuggestionLe x y := by
  unfold cmpSuggestion SuggestionLe
  by_cases h : x.distance = y.distance
  · simp only [h, ne_eq, not_true_eq_false, if_false, lt_self_iff_false, true_and, false_or]
    exact strcmp_le_iff _ _
  · simp only [ne_eq, h, not_false_eq_true, if_true, false_and, or_false]
    omega

theorem suggestionLe_total (x y : Suggestion) : SuggestionLe x y ∨ SuggestionLe y x := by
  unfold SuggestionLe
  rcases lt_trichotomy x.distance y.distance with h | h | h
  · exact Or.inl (Or.inl h)
  · rcases wordLt_trichotomy x.word y.word with hw | hw | hw
    · exact Or.inl (Or.inr ⟨h, Or.inr hw⟩)
    · exact Or.inl (Or.inr ⟨h, Or.inl hw⟩)
    · exact Or.inr (Or.inr ⟨h.symm, Or.inr hw⟩)
  · exact Or.inr (Or.inl h)

theorem suggestionLe_trans {x y z : Suggestion} (hxy : SuggestionLe x y)
    (hyz : SuggestionLe y z) : SuggestionLe x z := by
  unfold SuggestionLe at *
  rcases hxy with h | ⟨h, hw⟩
  · rcases hyz with h' | ⟨h', _⟩
    · exact Or.inl (lt_trans h h')
    · exact Or.inl (by omega)
  · rcases hyz with h' | ⟨h', hw'⟩
    · exact Or.inl (by omega)
    · refine Or.inr ⟨h.trans h', ?_⟩
      rcases hw with hw | hw
      · rw [hw]; exact hw'
      · rcases hw' with hw' | hw'
        · rw [← hw']; exact Or.inr hw
        · exact Or.inr (wordLt_trans hw hw')

theorem suggestionLe_antisymm {x y : Suggestion} (hxy : SuggestionLe x y)
    (hyx : SuggestionLe y x) : x = y := by
  unfold SuggestionLe at *
  have hd : x.distance = y.distance := by
    rcases hxy with h | ⟨h, _⟩
    · rcases hyx with h' | ⟨h', _⟩ <;> omega
    · exact h
  have hw : x.word = y.word := by
    rcases hxy with h | ⟨_, hw⟩
    · omega
    · rcases hyx with h' | ⟨_, hw'⟩
      · omega
      · rcases hw with hw | hw
        · exact hw
        · rcases hw' with hw' | hw'
          · exact hw'.symm
          · exact absurd hw' (wordLt_asymm hw)
  cases x
  cases y
  simp only [Suggestion.mk.injEq]
  exact ⟨hw, hd⟩

theorem cmpSuggestion_isTotal : IsTotal Suggestion (fun a b => cmpSuggestion a b ≤ 0) :=
  ⟨fun a b => by
    simp only [cmpSuggestion_le_iff]
    exact suggestionLe_total a b⟩

theorem cmpSuggestion_isTrans : IsTrans Suggestion (fun a b => cmpSuggestion a b ≤ 0) :=
  ⟨fun a b c => by
    simp only [cmpSuggestion_le_iff]
    exact suggestionLe_trans⟩

theorem cmpSuggestion_isAntisymm : IsAntisymm Suggestion (fun a b => cmpSuggestion a b ≤ 0) :=
  ⟨fun a b => by
    simp only [cmpSuggestion_le_iff]
    exact suggestionLe_antisymm⟩

theorem qsort_perm (l : List Suggestion) : (qsort cmpSuggestion l).Perm l :=
  List.perm_insertionSort _ l

theorem qsort_sorted (l : List Suggestion) :
    List.Sorted SuggestionLe (qsort cmpSuggestion l) := by
  haveI := cmpSuggestion_isTotal
  haveI := cmpSuggestion_isTrans
  have := List.sorted_insertionSort (fun a b => cmpSuggestion a b ≤ 0) l
  exact List.Pairwise.imp (fun h => (cmpSuggestion_le_iff _ _).mp h) this

theorem qsort_unique (l sorted : List Suggestion) (hp : sorted.Perm l)
    (hs : List.Sorted SuggestionLe sorted) : sorted = qsort cmpSuggestion l := by
  haveI := cmpSuggestion_isTotal
  haveI := cmpSuggestion_isTrans
  haveI := cmpSuggestion_isAntisymm
  have h1 : List.Sorted (fun a b => cmpSuggestion a b ≤ 0) sorted :=
    List.Pairwise.imp (fun h => (cmpSuggestion_le_iff _ _).mpr h) hs
  exact List.eq_of_perm_of_sorted (hp.trans (qsort_perm l).symm) h1
    (List.sorted_insertionSort (fun a b => cmpSuggestion a b ≤ 0) l)

theorem qsort_congr_perm {l l' : List Suggestion} (hp : l.Perm l') :
    qsort cmpSuggestion l = qsort cmpSuggestion l' :=
  qsort_unique l' _ ((qsort_perm l).trans hp) (qsort_sorted l)

theorem rankSuggestions_eq (maxPrint : Nat) (merged : List Suggestion) :
    rankSuggestions maxPrint merged =
      (qsort cmpSuggestion merged).take (min maxPrint merged.length) := by
  unfold rankSuggestions
  by_cases h0 : merged.length = 0
  · rw [if_pos h0, h0]
    simp
  · rw [if_neg h0]
    simp only
    congr 1
    split <;> omega

theorem rankSuggestions_congr_perm (maxPrint : Nat) {l l' : List Suggestion} (hp : l.Perm l') :
    rankSuggestions maxPrint l = rankSuggestions maxPrint l' := by
  rw [rankSuggestions_eq, rankSuggestions_eq, qsort_congr_perm hp, hp.length_eq]

theorem suggestCorrections_eq (numThreads : Nat) (hT : 1 ≤ numThreads) (threshold : Int)
    (maxPrint : Nat) (dictionary : List CStr) (word : CStr) :
    Pthread.suggestCorrections numThreads threshold maxPrint dictionary word =
      some (rankSuggestions maxPrint (expectedCandidates threshold dictionary word)) := by
  unfold Pthread.suggestCorrections
  rw [mergedCandidates_eq numThreads hT]
  rfl

/-- C4: the suggestions that `suggestCorrections` outputs are the first `min(topK, n)`
entries of the `n` collected candidates sorted by distance ascending, then by word
ascending: the output followed by the candidates left out is a sorted arrangement of all
candidates, so consecutive output entries are in non-decreasing order and every candidate
left out is at least every candidate output; with no candidate the output is empty. -/
theorem suggestCorrections_outputs_sorted_top (numThreads : Nat) (hT : 1 ≤ numThreads)
    (threshold : Int) (maxPrint : Nat) (dictionary : List CStr) (word : CStr) :
    ∃ candidates output,
      Pthread.mergedCandidates numThreads threshold dictionary word = some candidates ∧
      Pthread.suggestCorrections numThreads threshold maxPrint dictionary word = some output ∧
      Pthread.printedSuggestions numThreads threshold maxPrint dictionary word =
        some (output.map Suggestion.word) ∧
      output.length = min maxPrint candidates.length ∧
      List.Chain' SuggestionLe output ∧
      (∃ rest, (output ++ rest).Perm candidates ∧ List.Sorted SuggestionLe (output ++ rest) ∧
        ∀ x ∈ output, ∀ y ∈ rest, SuggestionLe x y) ∧
      (candidates = [] → output = []) := by
  have hm := mergedCandidates_eq numThreads hT threshold dictionary word
  have hs := suggestCorrections_eq numThreads hT threshold maxPrint dictionary word
  have hsorted := qsort_sorted (expectedCandidates threshold dictionary word)
  have hperm := qsort_perm (expectedCandidates threshold dictionary word)
  have hsplit := List.take_append_drop
    (min maxPrint (expectedCandidates threshold dictionary word).length)
    (qsort cmpSuggestion (expectedCandidates threshold dictionary word))
  refine ⟨_, _, hm, hs, ?_, ?_, ?_, ?_, ?_⟩
  · unfold Pthread.printedSuggestions
    rw [hs]
    rfl
  · rw [rankSuggestions_eq, List.length_take, hperm.length_eq]
    omega
  · rw [rankSuggestions_eq]
    exact List.Pairwise.chain' (List.Pairwise.sublist (List.take_sublist _ _) hsorted)
  · refine ⟨(qsort cmpSuggestion (expectedCandidates threshold dictionary word)).drop
      (min maxPrint (expectedCandidates threshold dictionary word).length), ?_, ?_, ?_⟩
    · rw [rankSuggestions_eq, hsplit]
      exact hperm
    · rw [rankSuggestions_eq, hsplit]
      exact hsorted
    · rw [rankSuggestions_eq]
      have := hsorted
      rw [← hsplit] at this
      exact (List.pairwise_append.mp this).2.2
  · intro h
    rw [h]
    rfl

/-- Instance of C4: dictionary "cat", "cats", "dog", word "cta", threshold 2 and a print
limit of 1: both "cat" and "cats" are candidates at distance 2, "cat" alone is printed. -/
theorem suggestCorrections_outputs_sorted_top_witness :
    Pthread.printedSuggestions 8 2 1 [[99, 97, 116], [99, 97, 116, 115], [100, 111, 103]]
        [99, 116, 97] = some [[99, 97, 116]] ∧
    ∃ candidates output,
      Pthread.mergedCandidates 8 2 [[99, 97, 116], [99, 97, 116, 115], [100, 111, 103]]
        [99, 116, 97] = some candidates ∧
      Pthread.suggestCorrections 8 2 1 [[99, 97, 116], [99, 97, 116, 115], [100, 111, 103]]
        [99, 116, 97] = some output ∧
      output.length = min 1 candidates.length :=
  ⟨by decide,
    (suggestCorrections_outputs_sorted_top 8 (by decide) 2 1
      [[99, 97, 116], [99, 97, 116, 115], [100, 111, 103]] [99, 116, 97]).elim
      fun candidates h => h.elim fun output ho =>
        ⟨candidates, output, ho.1, ho.2.1, ho.2.2.2.1⟩⟩

/-- C7: the output of the pthread `suggestCorrections` is the same for every worker count
(1 and 8 in particular), whatever the partition of the dictionary range, and sorting the
per-worker buffers concatenated in any other order gives the same output. -/
theorem suggestCorrections_same_for_all_worker_counts (numThreads numThreads' : Nat)
    (hT : 1 ≤ numThreads) (hT' : 1 ≤ numThreads') (threshold : Int) (maxPrint : Nat)
    (dictionary : List CStr) (word : CStr) :
    (∃ output,
      Pthread.suggestCorrections numThreads threshold maxPrint dictionary word = some output ∧
      Pthread.suggestCorrections numThreads' threshold maxPrint dictionary word =
        some output) ∧
    Pthread.printedSuggestions numThreads threshold maxPrint dictionary word =
      Pthread.printedSuggestions numThreads' threshold maxPrint dictionary word ∧
    (∀ buffers buffers' : List (List Suggestion),
      Pthread.candidateBuffers numThreads threshold dictionary word = some buffers →
      buffers'.Perm buffers →
      Pthread.suggestCorrections numThreads threshold maxPrint dictionary word =
        some (rankSuggestions maxPrint buffers'.flatten)) := by
  have hs := suggestCorrections_eq numThreads hT threshold maxPrint dictionary word
  have hs' := suggestCorrections_eq numThreads' hT' threshold maxPrint dictionary word
  refine ⟨⟨_, hs, hs'⟩, ?_, ?_⟩
  · unfold Pthread.printedSuggestions
    rw [hs, hs']
  · intro buffers buffers' hb hp
    have hm := mergedCandidates_eq numThreads hT threshold dictionary word
    unfold Pthread.mergedCandidates at hm
    rw [hb] at hm
    simp only [Option.map_some', Option.some.injEq] at hm
    rw [hs, ← hm, rankSuggestions_congr_perm maxPrint hp.flatten]

/-- Instance of C7: worker counts 1 and 8 on the dictionary "cat", "cats", "dog" and the
word "cta". -/
theorem suggestCorrections_same_for_all_worker_counts_witness :
    Pthread.printedSuggestions 1 2 5 [[99, 97, 116], [99, 97, 116, 115], [100, 111, 103]]
        [99, 116, 97] =
      Pthread.printedSuggestions 8 2 5 [[99, 97, 116], [99, 97, 116, 115], [100, 111, 103]]
        [99, 116, 97] :=
  (suggestCorrections_same_for_all_worker_counts 1 8 (by decide) (by decide) 2 5
    [[99, 97, 116], [99, 97, 116, 115], [100, 111, 103]] [99, 116, 97]).2.1

/-! ## Classification under every schedule -/

theorem spellCheckIteration_eq (maxMisspelled : Nat) (dictionary : List CStr)
    (hmax : dictionary.length ≤ MAX_DICT_WORDS) (g : Globals) (i : Int) (h0 : 0 ≤ i)
    (hn : i < (g.inputWords.length : Int)) :
    spellCheckIteration maxMisspelled dictionary g i =
      some (Globals.mk g.inputWords
        (if notInDictionary dictionary (wordAt g.inputWords i) = true ∧
            g.misspelledWords.length < maxMisspelled
          then g.misspelledWords ++ [i] else g.misspelledWords)) := by
  unfold spellCheckIteration notInDictionary wordAt
  rw [if_pos ⟨h0, hn⟩]
  rcases isWordInDictionary_total dictionary (g.inputWords.getD i.toNat []) hmax with h | ⟨h, _⟩
  · rw [h]
    simp only [if_true, decide_True, true_and]
    split <;> rfl
  · rw [h]
    simp

theorem take_filter_append_singleton (p : Int → Bool) (maxMisspelled : Nat)
    (done : List Int) (i : Int) :
    ((done ++ [i]).filter p).take maxMisspelled =
      if p i = true ∧ ((done.filter p).take maxMisspelled).length < maxMisspelled then
        (done.filter p).take maxMisspelled ++ [i]
      else (done.filter p).take maxMisspelled := by
  rw [List.filter_append, List.length_take]
  by_cases hp : p i = true
  · have hf : List.filter p [i] = [i] := by simp [hp]
    rw [hf]
    by_cases hl : (done.filter p).length < maxMisspelled
    · rw [if_pos ⟨hp, by omega⟩, List.take_of_length_le (by simp; omega),
        List.take_of_length_le (by omega)]
    · rw [if_neg (fun h => hl (by omega)), List.take_append_of_le_length (by omega)]
  · have hf : List.filter p [i] = [] := by simp [hp]
    rw [hf, if_neg (fun h => hp h.1), List.append_nil]

theorem pendingIndices_step (data : List ThreadRange) :
    ∀ (counters : List Int) (k : Nat) (d : ThreadRange) (i : Int),
      data[k]? = some d → counters[k]? = some i → i ≤ d.end_ →
      (pendingIndices data counters).Perm
        (i :: pendingIndices data (counters.set k (i + 1))) := by
  induction data with
  | nil => intro counters k d i hd; simp at hd
  | cons d0 ds ih =>
    intro counters k d i hd hc hle
    cases counters with
    | nil => simp at hc
    | cons c0 cs =>
      cases k with
      | zero =>
        simp only [List.getElem?_cons_zero, Option.some.injEq] at hd hc
        subst hd hc
        simp only [pendingIndices, List.set_cons_zero, List.zipWith_cons_cons,
          List.flatten_cons]
        rw [forRange_cons _ _ hle, List.cons_append]
      | succ k =>
        simp only [List.getElem?_cons_succ] at hd hc
        have := ih cs k d i hd hc hle
        simp only [pendingIndices, List.set_cons_succ, List.zipWith_cons_cons,
          List.flatten_cons] at this ⊢
        exact (List.Perm.append_left _ this).trans List.perm_middle

theorem pendingIndices_init (data : List ThreadRange) :
    pendingIndices data (data.map (fun d => d.start)) = assignedIndices data := by
  induction data with
  | nil => rfl
  | cons d ds ih =>
    simp only [pendingIndices, assignedIndices, List.map_cons, List.zipWith_cons_cons,
      List.flatten_cons] at ih ⊢
    rw [ih]

theorem pendingIndices_joined (data : List ThreadRange) :
    ∀ counters : List Int, (∀ p ∈ List.zip data counters, p.1.end_ < p.2) →
      pendingIndices data counters = [] := by
  induction data with
  | nil => intro counters _; simp [pendingIndices]
  | cons d ds ih =>
    intro counters h
    cases counters with
    | nil => simp [pendingIndices]
    | cons c cs =>
      have h0 := h (d, c) (by simp)
      have hr := ih cs (fun p hp => h p (by simp [hp]))
      simp only [pendingIndices, List.zipWith_cons_cons, List.flatten_cons] at hr ⊢
      rw [hr, forRange_empty _ _ h0]
      rfl

theorem spellCheckThreadStep_active (maxMisspelled : Nat) (dictionary inputWords : List CStr)
    (hmax : dictionary.length ≤ MAX_DICT_WORDS) (data : List ThreadRange)
    (hv : ∀ i ∈ assignedIndices data, 0 ≤ i ∧ i < (inputWords.length : Int))
    (s : SpellState) (done : List Int)
    (hinv : SpellInv maxMisspelled dictionary inputWords data s done) (k : Nat)
    (d : ThreadRange) (i : Int) (hd : data[k]? = some d) (hc : s.counters[k]? = some i)
    (hle : i ≤ d.end_) :
    ∃ g, spellCheckThreadStep maxMisspelled dictionary data s k =
        some (SpellState.mk g (s.counters.set k (i + 1))) ∧
      SpellInv maxMisspelled dictionary inputWords data
        (SpellState.mk g (s.counters.set k (i + 1))) (done ++ [i]) := by
  obtain ⟨hin, hmw, hperm⟩ := hinv
  have hstep := pendingIndices_step data s.counters k d i hd hc hle
  have hi : 0 ≤ i ∧ i < (inputWords.length : Int) := by
    apply hv
    apply hperm.subset
    exact List.mem_append_right _ (hstep.symm.subset (List.mem_cons_self _ _))
  unfold spellCheckThreadStep
  rw [hd, hc]
  simp only
  rw [if_pos hle, spellCheckIteration_eq maxMisspelled dictionary hmax s.globals i hi.1
    (by rw [hin]; exact hi.2)]
  refine ⟨_, rfl, hin, ?_, ?_⟩
  · simp only
    rw [take_filter_append_singleton, ← hmw, hin]
  · simp only [List.append_assoc, List.singleton_append]
    exact (List.Perm.append_left _ hstep.symm).trans hperm

theorem spellCheckThreadStep_inv (maxMisspelled : Nat) (dictionary inputWords : List CStr)
    (hmax : dictionary.length ≤ MAX_DICT_WORDS) (data : List ThreadRange)
    (hv : ∀ i ∈ assignedIndices data, 0 ≤ i ∧ i < (inputWords.length : Int))
    (s : SpellState) (done : List Int)
    (hinv : SpellInv maxMisspelled dictionary inputWords data s done) (k : Nat) :
    ∃ s' done', spellCheckThreadStep maxMisspelled dictionary data s k = some s' ∧
      SpellInv maxMisspelled dictionary inputWords data s' done' := by
  cases hd : data[k]? with
  | none => exact ⟨s, done, by unfold spellCheckThreadStep; rw [hd], hinv⟩
  | some d =>
    cases hc : s.counters[k]? with
    | none => exact ⟨s, done, by unfold spellCheckThreadStep; rw [hd, hc], hinv⟩
    | some i =>
      by_cases hle : i ≤ d.end_
      · obtain ⟨g, hg, hinv'⟩ := spellCheckThreadStep_active maxMisspelled dictionary
          inputWords hmax data hv s done hinv k d i hd hc hle
        exact ⟨_, _, hg, hinv'⟩
      · refine ⟨s, done, ?_, hinv⟩
        unfold spellCheckThreadStep
        rw [hd, hc]
        simp only
        rw [if_neg hle]

theorem spellCheckSchedule_inv (maxMisspelled : Nat) (dictionary inputWords : List CStr)
    (hmax : dictionary.length ≤ MAX_DICT_WORDS) (data : List ThreadRange)
    (hv : ∀ i ∈ assignedIndices data, 0 ≤ i ∧ i < (inputWords.length : Int))
    (schedule : List Nat) :
    ∀ (s : SpellState) (done : List Int),
      SpellInv maxMisspelled dictionary inputWords data s done →
      ∃ s' done', schedule.foldlM (spellCheckThreadStep maxMisspelled dictionary data) s =
          some s' ∧ SpellInv maxMisspelled dictionary inputWords data s' done' := by
  induction schedule with
  | nil => intro s done h; exact ⟨s, done, rfl, h⟩
  | cons k rest ih =>
    intro s done h
    obtain ⟨s1, done1, hs1, h1⟩ :=
      spellCheckThreadStep_inv maxMisspelled dictionary inputWords hmax data hv s done h k
    obtain ⟨s2, done2, hs2, h2⟩ := ih s1 done1 h1
    refine ⟨s2, done2, ?_, h2⟩
    rw [List.foldlM_cons, hs1]
    exact hs2

theorem map_wordAt_indices (inputWords : List CStr) :
    ((List.range inputWords.length).map (fun (k : Nat) => (k : Int))).map (wordAt inputWords) =
      inputWords := by
  rw [List.map_map]
  have : (wordAt inputWords ∘ fun (k : Nat) => (k : Int)) =
      fun (k : Nat) => inputWords.getD k [] := by
    funext k
    simp [wordAt]
  rw [this, map_getD_range]

theorem classified_of_perm (maxMisspelled : Nat) (dictionary inputWords : List CStr)
    (done : List Int)
    (hp : done.Perm ((List.range inputWords.length).map (fun (k : Nat) => (k : Int)))) :
    ClassifiedUpToCap maxMisspelled dictionary inputWords
      ((done.filter (fun i => notInDictionary dictionary (wordAt inputWords i))).take
        maxMisspelled) := by
  have hfp := hp.filter (fun i => notInDictionary dictionary (wordAt inputWords i))
  have hwords : (((List.range inputWords.length).map (fun (k : Nat) => (k : Int))).filter
      (fun i => notInDictionary dictionary (wordAt inputWords i))).map (wordAt inputWords) =
      inputWords.filter (notInDictionary dictionary) := by
    have := List.filter_map (f := wordAt inputWords) (p := notInDictionary dictionary)
      (l := (List.range inputWords.length).map (fun (k : Nat) => (k : Int)))
    rw [map_wordAt_indices] at this
    rw [this]
    rfl
  have hlen : (done.filter (fun i => notInDictionary dictionary (wordAt inputWords i))).length =
      (inputWords.filter (notInDictionary dictionary)).length := by
    rw [hfp.length_eq, ← hwords, List.length_map]
  constructor
  · intro hle
    rw [List.take_of_length_le (by omega), ← hwords]
    exact hfp.map _
  · intro hlt
    refine ⟨by rw [List.length_take]; omega, ?_, ?_⟩
    · have hnd : done.Nodup := hp.nodup_iff.mpr
        (List.Nodup.map (fun x y h => by simpa using h) (List.nodup_range _))
      exact List.Nodup.sublist ((List.take_sublist _ _).trans (List.filter_sublist _)) hnd
    · intro i hi
      have hmem := List.mem_of_mem_take hi
      rw [List.mem_filter] at hmem
      have hidx := hp.subset hmem.1
      simp only [List.mem_map, List.mem_range] at hidx
      obtain ⟨k, hk, rfl⟩ := hidx
      refine ⟨by omega, by omega, ?_⟩
      have := hmem.2
      unfold notInDictionary at this
      exact of_decide_eq_true this

theorem pendingIndices_nil_or_active (data : List ThreadRange) :
    ∀ counters : List Int,
      (∀ p ∈ List.zip data counters, p.1.end_ < p.2) ∨
      ∃ (k : Nat) (d : ThreadRange) (i : Int),
        data[k]? = some d ∧ counters[k]? = some i ∧ i ≤ d.end_ := by
  induction data with
  | nil => intro counters; left; simp
  | cons d ds ih =>
    intro counters
    cases counters with
    | nil => left; simp
    | cons c cs =>
      by_cases hle : c ≤ d.end_
      · exact Or.inr ⟨0, d, c, by simp, by simp, hle⟩
      · rcases ih cs with h | ⟨k, d', i, hd, hc, hi⟩
        · left
          intro p hp
          simp only [List.zip_cons_cons, List.mem_cons] at hp
          rcases hp with rfl | hp
          · simp only
            omega
          · exact h p hp
        · exact Or.inr ⟨k + 1, d', i, by simpa using hd, by simpa using hc, hi⟩

theorem spellCheck_can_finish (maxMisspelled : Nat) (dictionary inputWords : List CStr)
    (hmax : dictionary.length ≤ MAX_DICT_WORDS) (data : List ThreadRange)
    (hv : ∀ i ∈ assignedIndices data, 0 ≤ i ∧ i < (inputWords.length : Int)) :
    ∀ (m : Nat) (s : SpellState) (done : List Int),
      SpellInv maxMisspelled dictionary inputWords data s done →
      (pendingIndices data s.counters).length = m →
      ∃ (more : List Nat) (s' : SpellState),
        more.foldlM (spellCheckThreadStep maxMisspelled dictionary data) s = some s' ∧
        spellCheckJoined data s' := by
  intro m
  induction m with
  | zero =>
    intro s done hinv hm
    refine ⟨[], s, rfl, ?_⟩
    rcases pendingIndices_nil_or_active data s.counters with h | ⟨k, d, i, hd, hc, hi⟩
    · exact h
    · have := (pendingIndices_step data s.counters k d i hd hc hi).length_eq
      rw [hm] at this
      simp at this
  | succ m ih =>
    intro s done hinv hm
    rcases pendingIndices_nil_or_active data s.counters with h | ⟨k, d, i, hd, hc, hi⟩
    · exact ⟨[], s, rfl, h⟩
    · obtain ⟨g, hg, hinv'⟩ := spellCheckThreadStep_active maxMisspelled dictionary
        inputWords hmax data hv s done hinv k d i hd hc hi
      have hlen := (pendingIndices_step data s.counters k d i hd hc hi).length_eq
      rw [hm, List.length_cons] at hlen
      obtain ⟨more, s', hrun, hj⟩ := ih _ _ hinv' (by simp only; omega)
      refine ⟨k :: more, s', ?_, hj⟩
      rw [List.foldlM_cons, hg]
      exact hrun

theorem spellCheckOmp_inv (maxMisspelled : Nat) (dictionary inputWords : List CStr)
    (hmax : dictionary.length ≤ MAX_DICT_WORDS) (order : List Int)
    (hv : ∀ i ∈ order, 0 ≤ i ∧ i < (inputWords.length : Int)) :
    ∀ (g : Globals) (done : List Int), g.inputWords = inputWords →
      g.misspelledWords =
        (done.filter (fun i => notInDictionary dictionary (wordAt inputWords i))).take
          maxMisspelled →
      ∃ g', order.foldlM (spellCheckIteration maxMisspelled dictionary) g = some g' ∧
        g'.inputWords = inputWords ∧
        g'.misspelledWords =
          ((done ++ order).filter
            (fun i => notInDictionary dictionary (wordAt inputWords i))).take
            maxMisspelled := by
  induction order with
  | nil => intro g done hin hmw; exact ⟨g, rfl, hin, by rw [List.append_nil]; exact hmw⟩
  | cons i rest ih =>
    intro g done hin hmw
    have hi := hv i (List.mem_cons_self _ _)
    obtain ⟨g', hrun, hin', hmw'⟩ := ih (fun j hj => hv j (List.mem_cons_of_mem _ hj))
      (Globals.mk g.inputWords
        (if notInDictionary dictionary (wordAt g.inputWords i) = true ∧
            g.misspelledWords.length < maxMisspelled
          then g.misspelledWords ++ [i] else g.misspelledWords)) (done ++ [i]) hin
      (by simp only; rw [take_filter_append_singleton, ← hmw, hin])
    refine ⟨g', ?_, hin', ?_⟩
    · rw [List.foldlM_cons, spellCheckIteration_eq maxMisspelled dictionary hmax g i hi.1
        (by rw [hin]; exact hi.2)]
      exact hrun
    · rw [hmw', List.append_assoc, List.singleton_append]

/-- C6: for every input, every dictionary the array admits, every worker count and every
schedule of the spell-check threads, the run is defined and leaves the input untouched, it
can always be continued until all threads are joined, and once they are joined the
misspelled list is, as a multiset, the input occurrences `w` with
`isWordInDictionary(w) = 0` when these are at most the cap, and otherwise holds exactly
cap-many distinct such occurrences.  The same holds for the OpenMP loop under every commit
order of its iterations. -/
theorem classification_collects_words_not_in_dictionary (numThreads : Nat)
    (hT : 1 ≤ numThreads) (maxMisspelled : Nat) (dictionary inputWords : List CStr)
    (hmax : dictionary.length ≤ MAX_DICT_WORDS) :
    (∀ schedule : List Nat,
      ∃ s, spellCheckPthread numThreads maxMisspelled dictionary inputWords schedule = some s ∧
        s.globals.inputWords = inputWords ∧
        (spellCheckJoined (partition inputWords.length numThreads) s →
          ClassifiedUpToCap maxMisspelled dictionary inputWords s.globals.misspelledWords) ∧
        ∃ (more : List Nat) (s' : SpellState),
          spellCheckPthread numThreads maxMisspelled dictionary inputWords
            (schedule ++ more) = some s' ∧
          spellCheckJoined (partition inputWords.length numThreads) s') ∧
    (∀ order : List Int,
      order.Perm ((List.range inputWords.length).map (fun (k : Nat) => (k : Int))) →
      ∃ g, spellCheckOmp maxMisspelled dictionary inputWords order = some g ∧
        g.inputWords = inputWords ∧
        ClassifiedUpToCap maxMisspelled dictionary inputWords g.misspelledWords) := by
  have hassigned := (partition_spec inputWords.length numThreads hT).2.1
  rw [forRange_zero] at hassigned
  have hv : ∀ i ∈ assignedIndices (partition inputWords.length numThreads),
      0 ≤ i ∧ i < (inputWords.length : Int) := by
    intro i hi
    rw [hassigned] at hi
    simp only [List.mem_map, List.mem_range] at hi
    obtain ⟨k, hk, rfl⟩ := hi
    omega
  have hinit : SpellInv maxMisspelled dictionary inputWords
      (partition inputWords.length numThreads)
      (spellCheckInit inputWords (partition inputWords.length numThreads)) [] := by
    refine ⟨rfl, by simp [spellCheckInit], ?_⟩
    simp only [spellCheckInit, List.nil_append]
    rw [pendingIndices_init]
  constructor
  · intro schedule
    obtain ⟨s, done, hrun, hinv⟩ := spellCheckSchedule_inv maxMisspelled dictionary
      inputWords hmax _ hv schedule _ _ hinit
    refine ⟨s, hrun, hinv.1, ?_, ?_⟩
    · intro hj
      have hpend := pendingIndices_joined _ s.counters hj
      have hperm := hinv.2.2
      rw [hpend, List.append_nil, hassigned] at hperm
      rw [hinv.2.1]
      exact classified_of_perm maxMisspelled dictionary inputWords done hperm
    · obtain ⟨more, s', hmore, hj⟩ := spellCheck_can_finish maxMisspelled dictionary
        inputWords hmax _ hv _ s done hinv rfl
      refine ⟨more, s', ?_, hj⟩
      unfold spellCheckPthread
      simp only
      rw [List.foldlM_append, hrun]
      exact hmore
  · intro order hp
    have hvo : ∀ i ∈ order, 0 ≤ i ∧ i < (inputWords.length : Int) := by
      intro i hi
      have := hp.subset hi
      simp only [List.mem_map, List.mem_range] at this
      obtain ⟨k, hk, rfl⟩ := this
      omega
    obtain ⟨g, hrun, hin, hmw⟩ := spellCheckOmp_inv maxMisspelled dictionary inputWords hmax
      order hvo (Globals.mk inputWords []) [] rfl (by simp)
    refine ⟨g, hrun, hin, ?_⟩
    rw [hmw, List.nil_append]
    exact classified_of_perm maxMisspelled dictionary inputWords order hp

/-- Instance of C6: dictionary "cat", "cats", "dog", input "cta", "x", "dog", "y", two
threads under the schedule 1, 0, 0, 1 (thread 1 starts, thread 0 runs its two iterations,
thread 1 ends); with cap 5 and with cap 1. -/
theorem classification_collects_words_not_in_dictionary_witness :
    (∃ s, spellCheckPthread 2 5 [[99, 97, 116], [99, 97, 116, 115], [100, 111, 103]]
        [[99, 116, 97], [120], [100, 111, 103], [121]] [1, 0, 0, 1] = some s ∧
      s.globals.misspelledWords = [0, 1, 3] ∧
      ClassifiedUpToCap 5 [[99, 97, 116], [99, 97, 116, 115], [100, 111, 103]]
        [[99, 116, 97], [120], [100, 111, 103], [121]] s.globals.misspelledWords) ∧
    (∃ s, spellCheckPthread 2 1 [[99, 97, 116], [99, 97, 116, 115], [100, 111, 103]]
        [[99, 116, 97], [120], [100, 111, 103], [121]] [1, 0, 0, 1] = some s ∧
      s.globals.misspelledWords = [0] ∧
      ClassifiedUpToCap 1 [[99, 97, 116], [99, 97, 116, 115], [100, 111, 103]]
        [[99, 116, 97], [120], [100, 111, 103], [121]] s.globals.misspelledWords) := by
  constructor
  · obtain ⟨s, hrun, _, hcl, _⟩ := (classification_collects_words_not_in_dictionary 2
      (by decide) 5 [[99, 97, 116], [99, 97, 116, 115], [100, 111, 103]]
      [[99, 116, 97], [120], [100, 111, 103], [121]] (by decide)).1 [1, 0, 0, 1]
    have h0 : spellCheckPthread 2 5 [[99, 97, 116], [99, 97, 116, 115], [100, 111, 103]]
        [[99, 116, 97], [120], [100, 111, 103], [121]] [1, 0, 0, 1] =
        some (SpellState.mk (Globals.mk [[99, 116, 97], [120], [100, 111, 103], [121]]
          [0, 1, 3]) [2, 4]) := by decide
    rw [h0] at hrun
    cases hrun
    exact ⟨_, h0, rfl, hcl (by decide)⟩
  · obtain ⟨s, hrun, _, hcl, _⟩ := (classification_collects_words_not_in_dictionary 2
      (by decide) 1 [[99, 97, 116], [99, 97, 116, 115], [100, 111, 103]]
      [[99, 116, 97], [120], [100, 111, 103], [121]] (by decide)).1 [1, 0, 0, 1]
    have h0 : spellCheckPthread 2 1 [[99, 97, 116], [99, 97, 116, 115], [100, 111, 103]]
        [[99, 116, 97], [120], [100, 111, 103], [121]] [1, 0, 0, 1] =
        some (SpellState.mk (Globals.mk [[99, 116, 97], [120], [100, 111, 103], [121]]
          [0]) [2, 4]) := by decide
    rw [h0] at hrun
    cases hrun
    exact ⟨_, h0, rfl, hcl (by decide)⟩

/-! ## Edit distance: empty arguments -/

/-- C11: the distance from the empty string to `s` is the length of `s`; `editDistance`
returns a value on every pair of strings, in particular when the first, the second or both
are empty. -/
theorem editDistance_empty (s : CStr) :
    editDistance [] s = s.length ∧ editDistance s [] = s.length ∧ editDistance [] [] = 0 ∧
      ∀ a b : CStr, ∃ d : Nat, editDistance a b = d := by
  refine ⟨?_, ?_, ?_, fun a b => ⟨_, rfl⟩⟩
  · rw [editDistance_eq_levenshteinRef]
    simp [levenshteinRef]
  · rw [editDistance_eq_levenshteinRef, levenshteinRef_nil_right]
  · rfl

/-! ## Chunk sizes -/

theorem partitionLoop_chunkSize (chunk : Int) :
    ∀ (k : Nat) (start remainder : Int) (j : Nat), 0 ≤ remainder → j < k →
      ∃ d, (partitionLoop chunk k start remainder)[j]? = some d ∧
        chunkSize d = chunk + (if (j : Int) < remainder then 1 else 0) := by
  intro k
  induction k with
  | zero => intro start remainder j _ hj; omega
  | succ k ih =>
    intro start remainder j h0 hj
    by_cases hr : remainder > 0
    · rw [partitionLoop_succ_pos chunk k start remainder hr]
      cases j with
      | zero =>
        refine ⟨ThreadRange.mk start (start + chunk), by simp, ?_⟩
        simp only [chunkSize, Nat.cast_zero]
        rw [if_pos hr]
        omega
      | succ j =>
        obtain ⟨d, hd, hs⟩ := ih (start + chunk + 1) (remainder - 1) j (by omega) (by omega)
        refine ⟨d, by simpa using hd, ?_⟩
        rw [hs]
        push_cast
        by_cases hj' : (j : Int) < remainder - 1
        · rw [if_pos hj', if_pos (by omega)]
        · rw [if_neg hj', if_neg (by omega)]
    · rw [partitionLoop_succ_zero chunk k start remainder hr]
      cases j with
      | zero =>
        refine ⟨ThreadRange.mk start (start + chunk - 1), by simp, ?_⟩
        simp only [chunkSize, Nat.cast_zero]
        rw [if_neg hr]
        omega
      | succ j =>
        obtain ⟨d, hd, hs⟩ := ih (start + chunk) remainder j h0 (by omega)
        refine ⟨d, by simpa using hd, ?_⟩
        rw [hs]
        push_cast
        rw [if_neg (by omega), if_neg (by omega)]

theorem partition_chunkSize (count numThreads : Nat) (j : Nat) (hj : j < numThreads) :
    ∃ d, (partition count numThreads)[j]? = some d ∧
      chunkSize d = ((count / numThreads : Nat) : Int) +
        (if j < count % numThreads then 1 else 0) := by
  have hc0 : (0 : Int) ≤ (count : Int) := Int.natCast_nonneg _
  have hT0 : (0 : Int) ≤ (numThreads : Int) := Int.natCast_nonneg _
  have hdiv : Int.tdiv count numThreads = ((count / numThreads : Nat) : Int) := by
    rw [Int.tdiv_eq_ediv hc0 hT0]
    norm_cast
  have hmod : Int.tmod count numThreads = ((count % numThreads : Nat) : Int) := by
    rw [Int.tmod_eq_emod hc0 hT0]
    norm_cast
  obtain ⟨d, hd, hs⟩ := partitionLoop_chunkSize (Int.tdiv count numThreads) numThreads 0
    (Int.tmod count numThreads) j (by rw [hmod]; exact Int.natCast_nonneg _) hj
  refine ⟨d, hd, ?_⟩
  rw [hs, hdiv, hmod]
  by_cases h : j < count % numThreads
  · rw [if_pos h, if_pos (by exact_mod_cast h)]
  · rw [if_neg h, if_neg (by exact_mod_cast h)]

/-- C12: for `count` items and `numThreads >= 1` workers, worker `j` receives
`count / numThreads` indices, plus one exactly when `j < count % numThreads`; hence any two
workers' chunk sizes differ by at most 1 and the workers with the larger size are exactly
the first `count % numThreads` ones. -/
theorem partition_chunk_sizes_balanced (count numThreads : Nat) (hT : 1 ≤ numThreads) :
    (∀ j, j < numThreads → ∃ d, (partition count numThreads)[j]? = some d ∧
      chunkSize d = ((count / numThreads : Nat) : Int) +
        (if j < count % numThreads then 1 else 0) ∧
      (chunkSize d = ((count / numThreads : Nat) : Int) + 1 ↔ j < count % numThreads)) ∧
    (∀ d ∈ partition count numThreads, ∀ d' ∈ partition count numThreads,
      chunkSize d ≤ chunkSize d' + 1) := by
  constructor
  · intro j hj
    obtain ⟨d, hd, hs⟩ := partition_chunkSize count numThreads j hj
    refine ⟨d, hd, hs, ?_⟩
    rw [hs]
    by_cases h : j < count % numThreads
    · simp [h]
    · simp [h]
  · intro d hd d' hd'
    obtain ⟨j, hj, hdj⟩ := List.getElem_of_mem hd
    obtain ⟨j', hj', hdj'⟩ := List.getElem_of_mem hd'
    have hlen := (partition_spec count numThreads hT).1
    obtain ⟨e, he, hs⟩ := partition_chunkSize count numThreads j (by omega)
    obtain ⟨e', he', hs'⟩ := partition_chunkSize count numThreads j' (by omega)
    rw [List.getElem?_eq_getElem hj, Option.some.injEq] at he
    rw [List.getElem?_eq_getElem hj', Option.some.injEq] at he'
    rw [← hdj, ← hdj', he, he', hs, hs']
    split <;> split <;> omega

/-- Instance of C12: 10 items on 4 workers give the sizes 3, 3, 2, 2. -/
theorem partition_chunk_sizes_balanced_witness :
    (partition 10 4).map chunkSize = [3, 3, 2, 2] ∧
      ∃ d, (partition 10 4)[1]? = some d ∧ chunkSize d = ((10 / 4 : Nat) : Int) + 1 :=
  ⟨by decide,
    ((partition_chunk_sizes_balanced 10 4 (by decide)).1 1 (by decide)).elim
      fun d h => ⟨d, h.1, h.2.2.mpr (by decide)⟩⟩

/-! ## The comparator as a total order -/

theorem cmpSuggestion_lt_iff (x y : Suggestion) :
    cmpSuggestion x y < 0 ↔
      x.distance < y.distance ∨ (x.distance = y.distance ∧ WordLt x.word y.word) := by
  unfold cmpSuggestion
  by_cases h : x.distance = y.distance
  · simp only [h, ne_eq, not_true_eq_false, if_false, lt_self_iff_false, true_and, false_or]
    exact strcmp_neg_iff _ _
  · simp only [ne_eq, h, not_false_eq_true, if_true, false_and, or_false]
    omega

theorem cmpSuggestion_eq_zero_iff (x y : Suggestion) :
    cmpSuggestion x y = 0 ↔ x.distance = y.distance ∧ x.word = y.word := by
  unfold cmpSuggestion
  by_cases h : x.distance = y.distance
  · simp only [h, ne_eq, not_true_eq_false, if_false, true_and]
    exact strcmp_eq_zero_iff _ _
  · simp only [ne_eq, h, not_false_eq_true, if_true, false_and, iff_false]
    omega

theorem cmpSuggestion_pos_iff (x y : Suggestion) :
    0 < cmpSuggestion x y ↔ cmpSuggestion y x < 0 := by
  unfold cmpSuggestion
  by_cases h : x.distance = y.distance
  · have h' : y.distance = x.distance := h.symm
    simp only [h, ne_eq, not_true_eq_false, if_false]
    exact strcmp_swap_neg _ _
  · have h' : ¬ y.distance = x.distance := fun e => h e.symm
    simp only [ne_eq, h, h', not_false_eq_true, if_true]
    omega

/-- C14: on suggestions whose distances are non-negative `int` values the subtraction in
`cmpSuggestion` stays inside `int`, and the comparator is the order of the specification:
negative exactly when the distance is smaller or the distances are equal and the word is
lexicographically smaller, zero exactly when distance and word are equal, of opposite sign
when the arguments are swapped, and transitive. -/
theorem cmpSuggestion_is_total_order (x y z : Suggestion) (hx : 0 ≤ x.distance)
    (hy : 0 ≤ y.distance) (hxm : x.distance ≤ INT_MAX) (hym : y.distance ≤ INT_MAX) :
    (INT_MIN ≤ x.distance - y.distance ∧ x.distance - y.distance ≤ INT_MAX) ∧
    (cmpSuggestion x y < 0 ↔
      x.distance < y.distance ∨ (x.distance = y.distance ∧ WordLt x.word y.word)) ∧
    (cmpSuggestion x y = 0 ↔ x.distance = y.distance ∧ x.word = y.word) ∧
    (cmpSuggestion y x < 0 ↔ 0 < cmpSuggestion x y) ∧
    (cmpSuggestion y x = 0 ↔ cmpSuggestion x y = 0) ∧
    (0 < cmpSuggestion y x ↔ cmpSuggestion x y < 0) ∧
    (cmpSuggestion x y < 0 → cmpSuggestion y z < 0 → cmpSuggestion x z < 0) ∧
    (cmpSuggestion x y ≤ 0 → cmpSuggestion y z ≤ 0 → cmpSuggestion x z ≤ 0) := by
  refine ⟨?_, cmpSuggestion_lt_iff x y, cmpSuggestion_eq_zero_iff x y,
    (cmpSuggestion_pos_iff x y).symm, ?_, cmpSuggestion_pos_iff y x, ?_, ?_⟩
  · simp only [INT_MIN, INT_MAX] at *
    omega
  · rw [cmpSuggestion_eq_zero_iff, cmpSuggestion_eq_zero_iff]
    constructor <;> rintro ⟨h1, h2⟩ <;> exact ⟨h1.symm, h2.symm⟩
  · rw [cmpSuggestion_lt_iff, cmpSuggestion_lt_iff, cmpSuggestion_lt_iff]
    rintro (h | ⟨h, hw⟩) (h' | ⟨h', hw'⟩)
    · exact Or.inl (lt_trans h h')
    · exact Or.inl (by omega)
    · exact Or.inl (by omega)
    · exact Or.inr ⟨h.trans h', wordLt_trans hw hw'⟩
  · rw [cmpSuggestion_le_iff, cmpSuggestion_le_iff, cmpSuggestion_le_iff]
    exact suggestionLe_trans

/-- Instance of C14: "cat" at distance 2, "cats" at distance 2, "dog" at distance 3. -/
theorem cmpSuggestion_is_total_order_witness :
    cmpSuggestion (Suggestion.mk [99, 97, 116] 2) (Suggestion.mk [99, 97, 116, 115] 2) < 0 ∧
      0 < cmpSuggestion (Suggestion.mk [99, 97, 116, 115] 2) (Suggestion.mk [99, 97, 116] 2) ∧
      cmpSuggestion (Suggestion.mk [99, 97, 116] 2) (Suggestion.mk [100, 111, 103] 3) < 0 :=
  have h := cmpSuggestion_is_total_order (Suggestion.mk [99, 97, 116] 2)
    (Suggestion.mk [99, 97, 116, 115] 2) (Suggestion.mk [100, 111, 103] 3)
    (by decide) (by decide) (by decide) (by decide)
  have h1 : cmpSuggestion (Suggestion.mk [99, 97, 116] 2)
      (Suggestion.mk [99, 97, 116, 115] 2) < 0 := h.2.1.mpr (Or.inr ⟨rfl, by decide⟩)
  ⟨h1, h.2.2.2.2.2.1.mpr h1, h.2.2.2.2.2.2.1 h1 (by decide)⟩

/-! ## Binary search: safety without the sortedness assumption -/

theorem isWordInDictionaryLoop_fuel_succ (dictionary : List CStr) (word : CStr) :
    ∀ (fuel : Nat) (low high r : Int),
      isWordInDictionaryLoop dictionary word fuel low high = some r →
      isWordInDictionaryLoop dictionary word (fuel + 1) low high = some r := by
  intro fuel
  induction fuel with
  | zero => intro low high r h; simp [isWordInDictionaryLoop] at h
  | succ fuel ih =>
    intro low high r h
    rw [isWordInDictionaryLoop] at h ⊢
    by_cases hlh : low ≤ high
    · rw [if_pos hlh] at h ⊢
      cases hc : checkInt32 (low + high) with
      | none => rw [hc] at h; simp at h
      | some sum =>
        rw [hc] at h
        simp only at h ⊢
        by_cases hr : 0 ≤ Int.tdiv sum 2 ∧ Int.tdiv sum 2 < (dictionary.length : Int)
        · rw [if_pos hr] at h ⊢
          by_cases h0 : strcmp word (dictionary.getD (Int.tdiv sum 2).toNat []) = 0
          · rw [if_pos h0] at h ⊢
            exact h
          · rw [if_neg h0] at h ⊢
            by_cases hneg : strcmp word (dictionary.getD (Int.tdiv sum 2).toNat []) < 0
            · rw [if_pos hneg] at h ⊢
              exact ih _ _ _ h
            · rw [if_neg hneg] at h ⊢
              exact ih _ _ _ h
        · rw [if_neg hr] at h
          simp at h
    · rw [if_neg hlh] at h ⊢
      exact h

theorem isWordInDictionaryLoop_fuel_add (dictionary : List CStr) (word : CStr) (k : Nat) :
    ∀ (fuel : Nat) (low high r : Int),
      isWordInDictionaryLoop dictionary word fuel low high = some r →
      isWordInDictionaryLoop dictionary word (fuel + k) low high = some r := by
  induction k with
  | zero => intro fuel low high r h; exact h
  | succ k ih =>
    intro fuel low high r h
    exact isWordInDictionaryLoop_fuel_succ dictionary word _ _ _ _ (ih fuel low high r h)

theorem isWordInDictionaryReads_safe (dictionary : List CStr) (word : CStr)
    (hmax : dictionary.length ≤ MAX_DICT_WORDS) :
    ∀ (fuel : Nat) (low high : Int), 0 ≤ low → high < (dictionary.length : Int) →
      (isWordInDictionaryReads dictionary word fuel low high).length ≤ (high + 1 - low).toNat ∧
      ∀ r ∈ isWordInDictionaryReads dictionary word fuel low high,
        INT_MIN ≤ r.1 + r.2.1 ∧ r.1 + r.2.1 ≤ INT_MAX ∧ r.2.2 = Int.tdiv (r.1 + r.2.1) 2 ∧
          0 ≤ r.2.2 ∧ r.2.2 < (dictionary.length : Int) := by
  have hmax' : (dictionary.length : Int) ≤ 466600 := by
    have : dictionary.length ≤ 466600 := hmax
    omega
  intro fuel
  induction fuel with
  | zero => intro low high _ _; simp [isWordInDictionaryReads]
  | succ fuel ih =>
    intro low high h0 hn
    by_cases hlh : low ≤ high
    · have hmid : Int.tdiv (low + high) 2 = (low + high) / 2 :=
        Int.tdiv_eq_ediv (by omega) (by omega)
      have hhere : INT_MIN ≤ low + high ∧ low + high ≤ INT_MAX ∧
          Int.tdiv (low + high) 2 = Int.tdiv (low + high) 2 ∧
          0 ≤ Int.tdiv (low + high) 2 ∧ Int.tdiv (low + high) 2 < (dictionary.length : Int) := by
        refine ⟨?_, ?_, rfl, ?_, ?_⟩
        · simp only [INT_MIN]; omega
        · simp only [INT_MAX]; omega
        · rw [hmid]; omega
        · rw [hmid]; omega
      rw [isWordInDictionaryReads, if_pos hlh]
      simp only [List.length_cons, List.mem_cons]
      split
      · refine ⟨by simp; omega, ?_⟩
        rintro r (rfl | hr)
        · exact hhere
        · simp at hr
      · split
        · obtain ⟨h1, h2⟩ := ih low (Int.tdiv (low + high) 2 - 1) h0 (by rw [hmid]; omega)
          refine ⟨by rw [hmid] at h1 ⊢; omega, ?_⟩
          rintro r (rfl | hr)
          · exact hhere
          · exact h2 r hr
        · obtain ⟨h1, h2⟩ := ih (Int.tdiv (low + high) 2 + 1) high (by rw [hmid]; omega) hn
          refine ⟨by rw [hmid] at h1 ⊢; omega, ?_⟩
          rintro r (rfl | hr)
          · exact hhere
          · exact h2 r hr
    · rw [isWordInDictionaryReads, if_neg hlh]
      simp

/-- C19: for every dictionary size up to `MAX_DICT_WORDS` and every word, sorted dictionary
or not, the binary search ends after at most `dictSize` passes and returns 0 or 1 (with any
fuel above `dictSize`, no pass fails the `int` range check on `low + high` or the bounds check
on `mid`); listed pass by pass, every sum `low + high` lies inside `int` and every `mid` read
satisfies `0 <= mid < dictSize`; and a result of 1 means the word is the entry at some
index. -/
theorem isWordInDictionary_safe (dictionary : List CStr) (word : CStr)
    (hmax : dictionary.length ≤ MAX_DICT_WORDS) :
    (∃ r, isWordInDictionary dictionary word = some r ∧ (r = 0 ∨ r = 1) ∧
      (∀ fuel, dictionary.length + 1 ≤ fuel →
        isWordInDictionaryLoop dictionary word fuel 0 ((dictionary.length : Int) - 1) =
          some r) ∧
      (r = 1 → ∃ k, k < dictionary.length ∧ dictionary[k]? = some word)) ∧
    (∀ fuel,
      (isWordInDictionaryReads dictionary word fuel 0 ((dictionary.length : Int) - 1)).length ≤
        dictionary.length ∧
      ∀ r ∈ isWordInDictionaryReads dictionary word fuel 0 ((dictionary.length : Int) - 1),
        INT_MIN ≤ r.1 + r.2.1 ∧ r.1 + r.2.1 ≤ INT_MAX ∧ r.2.2 = Int.tdiv (r.1 + r.2.1) 2 ∧
          0 ≤ r.2.2 ∧ r.2.2 < (dictionary.length : Int)) := by
  constructor
  · have hfuel : ∀ r, isWordInDictionary dictionary word = some r →
        ∀ fuel, dictionary.length + 1 ≤ fuel →
          isWordInDictionaryLoop dictionary word fuel 0 ((dictionary.length : Int) - 1) =
            some r := by
      intro r hr fuel hf
      obtain ⟨k, rfl⟩ : ∃ k, fuel = dictionary.length + 1 + k := ⟨_, (Nat.add_sub_cancel' hf).symm⟩
      exact isWordInDictionaryLoop_fuel_add dictionary word k _ _ _ r hr
    rcases isWordInDictionary_total dictionary word hmax with h | ⟨h, hm⟩
    · exact ⟨0, h, Or.inl rfl, hfuel 0 h, fun e => absurd e (by decide)⟩
    · refine ⟨1, h, Or.inr rfl, hfuel 1 h, fun _ => ?_⟩
      obtain ⟨k, hk, hkw⟩ := List.getElem_of_mem hm
      exact ⟨k, hk, by rw [List.getElem?_eq_getElem hk, hkw]⟩
  · intro fuel
    have := isWordInDictionaryReads_safe dictionary word hmax fuel 0
      ((dictionary.length : Int) - 1) (by omega) (by omega)
    refine ⟨by have := this.1; omega, this.2⟩

/-- Instance of C19 on the unsorted dictionary "dog", "cat", "cats": the search for "cats"
reads index 1, then index 2, and returns 1. -/
theorem isWordInDictionary_safe_witness :
    isWordInDictionaryReads [[100, 111, 103], [99, 97, 116], [99, 97, 116, 115]]
        [99, 97, 116, 115] 4 0 2 = [(0, 2, 1), (2, 2, 2)] ∧
      ∃ r, isWordInDictionary [[100, 111, 103], [99, 97, 116], [99, 97, 116, 115]]
        [99, 97, 116, 115] = some r ∧ (r = 0 ∨ r = 1) :=
  ⟨by decide,
    (isWordInDictionary_safe [[100, 111, 103], [99, 97, 116], [99, 97, 116, 115]]
      [99, 97, 116, 115] (by decide)).1.elim fun r h => ⟨r, h.1, h.2.1⟩⟩

/-! ## OpenMP and pthread suggestions agree; the first scenario -/

theorem ompSuggestCorrections_eq (threshold : Int) (maxPrint : Nat) (dictionary : List CStr)
    (word : CStr) (order : List Int)
    (hp : order.Perm ((List.range dictionary.length).map (fun (k : Nat) => (k : Int)))) :
    Omp.suggestCorrections threshold maxPrint dictionary word order =
      some (rankSuggestions maxPrint (expectedCandidates threshold dictionary word)) := by
  obtain ⟨candidates, hc, hperm⟩ := collectedCandidates_eq threshold dictionary word order hp
  unfold Omp.suggestCorrections
  rw [hc, Option.map_some', rankSuggestions_congr_perm maxPrint hperm]

/-- C20: for every word, dictionary, threshold and print limit, every worker count of the
pthread program and every order in which the OpenMP iterations append their candidates, the
OpenMP `suggestCorrections` and the pthread `suggestCorrections` output the same sequence of
suggestions, hence the same sequence of words. -/
theorem omp_and_pthread_suggestions_agree (numThreads : Nat) (hT : 1 ≤ numThreads)
    (threshold : Int) (maxPrint : Nat) (dictionary : List CStr) (word : CStr)
    (order : List Int)
    (hp : order.Perm ((List.range dictionary.length).map (fun (k : Nat) => (k : Int)))) :
    (∃ output,
      Omp.suggestCorrections threshold maxPrint dictionary word order = some output ∧
      Pthread.suggestCorrections numThreads threshold maxPrint dictionary word =
        some output) ∧
    (∃ words,
      Omp.printedSuggestions threshold maxPrint dictionary word order = some words ∧
      Pthread.printedSuggestions numThreads threshold maxPrint dictionary word =
        some words) := by
  have ho := ompSuggestCorrections_eq threshold maxPrint dictionary word order hp
  have hs := suggestCorrections_eq numThreads hT threshold maxPrint dictionary word
  refine ⟨⟨_, ho, hs⟩, ⟨(rankSuggestions maxPrint
    (expectedCandidates threshold dictionary word)).map Suggestion.word, ?_, ?_⟩⟩
  · unfold Omp.printedSuggestions
    rw [ho]
    rfl
  · unfold Pthread.printedSuggestions
    rw [hs]
    rfl

/-- Instance of C20: dictionary "cat", "cats", "dog", word "cta", 8 threads, the OpenMP
iterations appending in the order 1, 2, 0 ("cats" before "cat"). -/
theorem omp_and_pthread_suggestions_agree_witness :
    Omp.collectedCandidates 2 [[99, 97, 116], [99, 97, 116, 115], [100, 111, 103]]
        [99, 116, 97] [1, 2, 0] =
        some [Suggestion.mk [99, 97, 116, 115] 2, Suggestion.mk [99, 97, 116] 2] ∧
    ∃ words,
      Omp.printedSuggestions 2 5 [[99, 97, 116], [99, 97, 116, 115], [100, 111, 103]]
        [99, 116, 97] [1, 2, 0] = some words ∧
      Pthread.printedSuggestions 8 2 5 [[99, 97, 116], [99, 97, 116, 115], [100, 111, 103]]
        [99, 116, 97] = some words :=
  ⟨by decide,
    (omp_and_pthread_suggestions_agree 8 (by decide) 2 5
      [[99, 97, 116], [99, 97, 116, 115], [100, 111, 103]] [99, 116, 97] [1, 2, 0]
      (by decide)).2⟩

theorem spellCheckPthread_inv (numThreads : Nat) (hT : 1 ≤ numThreads) (maxMisspelled : Nat)
    (dictionary inputWords : List CStr) (hmax : dictionary.length ≤ MAX_DICT_WORDS)
    (schedule : List Nat) :
    ∃ s done,
      spellCheckPthread numThreads maxMisspelled dictionary inputWords schedule = some s ∧
      SpellInv maxMisspelled dictionary inputWords (partition inputWords.length numThreads)
        s done ∧
      (spellCheckJoined (partition inputWords.length numThreads) s →
        done.Perm ((List.range inputWords.length).map (fun (k : Nat) => (k : Int)))) := by
  have hassigned := (partition_spec inputWords.length numThreads hT).2.1
  rw [forRange_zero] at hassigned
  have hv : ∀ i ∈ assignedIndices (partition inputWords.length numThreads),
      0 ≤ i ∧ i < (inputWords.length : Int) := by
    intro i hi
    rw [hassigned] at hi
    simp only [List.mem_map, List.mem_range] at hi
    obtain ⟨k, hk, rfl⟩ := hi
    omega
  have hinit : SpellInv maxMisspelled dictionary inputWords
      (partition inputWords.length numThreads)
      (spellCheckInit inputWords (partition inputWords.length numThreads)) [] := by
    refine ⟨rfl, by simp [spellCheckInit], ?_⟩
    simp only [spellCheckInit, List.nil_append]
    rw [pendingIndices_init]
  obtain ⟨s, done, hrun, hinv⟩ := spellCheckSchedule_inv maxMisspelled dictionary
    inputWords hmax _ hv schedule _ _ hinit
  refine ⟨s, done, hrun, hinv, ?_⟩
  intro hj
  have hpend := pendingIndices_joined _ s.counters hj
  have hperm := hinv.2.2
  rw [hpend, List.append_nil, hassigned] at hperm
  exact hperm

theorem spellCheckPthread_classified (numThreads : Nat) (hT : 1 ≤ numThreads)
    (maxMisspelled : Nat) (dictionary inputWords : List CStr)
    (hmax : dictionary.length ≤ MAX_DICT_WORDS) (schedule : List Nat) (s : SpellState)
    (hrun : spellCheckPthread numThreads maxMisspelled dictionary inputWords schedule = some s)
    (hj : spellCheckJoined (partition inputWords.length numThreads) s) :
    ClassifiedUpToCap maxMisspelled dictionary inputWords s.globals.misspelledWords := by
  obtain ⟨s', done, hrun', hinv, hperm⟩ := spellCheckPthread_inv numThreads hT maxMisspelled
    dictionary inputWords hmax schedule
  rw [hrun] at hrun'
  cases hrun'
  rw [hinv.2.1]
  exact classified_of_perm maxMisspelled dictionary inputWords done (hperm hj)

/-- C15: scenario 1 with the constants of `common.h`.  The dictionary "cat", "cats", "dog" is
left as it is by the sort; on the input "cta" every complete run of the spell-check threads,
and the OpenMP loop, leaves the misspelled list "cta"; the suggestions printed for "cta" are
"cat", "cats" in that order, both at distance 2, by the pthread program and by the OpenMP
program under every order of its iterations. -/
theorem scenario_one :
    qsort cmpDictionary [[99, 97, 116], [99, 97, 116, 115], [100, 111, 103]] =
      [[99, 97, 116], [99, 97, 116, 115], [100, 111, 103]] ∧
    (∀ (schedule : List Nat) (s : SpellState),
      spellCheckPthread NUM_THREADS MAX_MISSPELLED
        [[99, 97, 116], [99, 97, 116, 115], [100, 111, 103]] [[99, 116, 97]] schedule =
        some s →
      spellCheckJoined (partition 1 NUM_THREADS) s →
      s.globals.misspelledWords.map (wordAt [[99, 116, 97]]) = [[99, 116, 97]]) ∧
    (spellCheckOmp MAX_MISSPELLED [[99, 97, 116], [99, 97, 116, 115], [100, 111, 103]]
      [[99, 116, 97]] [0]).map (fun g => g.misspelledWords.map (wordAt g.inputWords)) =
      some [[99, 116, 97]] ∧
    Pthread.suggestCorrections NUM_THREADS SUGGESTION_THRESHOLD MAX_PRINT_SUGGESTIONS
      [[99, 97, 116], [99, 97, 116, 115], [100, 111, 103]] [99, 116, 97] =
      some [Suggestion.mk [99, 97, 116] 2, Suggestion.mk [99, 97, 116, 115] 2] ∧
    Pthread.printedSuggestions NUM_THREADS SUGGESTION_THRESHOLD MAX_PRINT_SUGGESTIONS
      [[99, 97, 116], [99, 97, 116, 115], [100, 111, 103]] [99, 116, 97] =
      some [[99, 97, 116], [99, 97, 116, 115]] ∧
    (∀ order : List Int, order.Perm [0, 1, 2] →
      Omp.printedSuggestions SUGGESTION_THRESHOLD MAX_PRINT_SUGGESTIONS
        [[99, 97, 116], [99, 97, 116, 115], [100, 111, 103]] [99, 116, 97] order =
        some [[99, 97, 116], [99, 97, 116, 115]]) := by
  refine ⟨by decide, ?_, by decide, by decide, by decide, ?_⟩
  · intro schedule s hrun hj
    have hcl := spellCheckPthread_classified NUM_THREADS (by decide) MAX_MISSPELLED
      [[99, 97, 116], [99, 97, 116, 115], [100, 111, 103]] [[99, 116, 97]] (by decide)
      schedule s hrun hj
    have hperm := hcl.1 (by decide)
    have hfilter : List.filter
        (notInDictionary [[99, 97, 116], [99, 97, 116, 115], [100, 111, 103]])
        [[99, 116, 97]] = [[99, 116, 97]] := by decide
    rw [hfilter] at hperm
    exact List.perm_singleton.mp hperm
  · intro order hp
    have ho := ompSuggestCorrections_eq SUGGESTION_THRESHOLD MAX_PRINT_SUGGESTIONS
      [[99, 97, 116], [99, 97, 116, 115], [100, 111, 103]] [99, 116, 97] order hp
    unfold Omp.printedSuggestions
    rw [ho]
    decide

/-- Instance of C15: thread 0, which owns the only input word, runs its iteration. -/
theorem scenario_one_witness :
    ∃ s, spellCheckPthread NUM_THREADS MAX_MISSPELLED
        [[99, 97, 116], [99, 97, 116, 115], [100, 111, 103]] [[99, 116, 97]] [0] = some s ∧
      spellCheckJoined (partition 1 NUM_THREADS) s ∧
      s.globals.misspelledWords.map (wordAt [[99, 116, 97]]) = [[99, 116, 97]] :=
  have hrun : spellCheckPthread NUM_THREADS MAX_MISSPELLED
      [[99, 97, 116], [99, 97, 116, 115], [100, 111, 103]] [[99, 116, 97]] [0] =
      some (SpellState.mk (Globals.mk [[99, 116, 97]] [0]) [1, 1, 1, 1, 1, 1, 1, 1]) := by
    decide
  ⟨_, hrun, by decide, scenario_one.2.1 [0] _ hrun (by decide)⟩

/-! ## The distances of the first scenario -/

/-- C16 as stated fails: the distance between "cta" and "cats" is not 3, and with threshold 2
the scan over "cat", "cats", "dog" does not yield "cat" alone. -/
theorem scenario_one_distances_counterexample :
    editDistance [99, 116, 97] [99, 97, 116, 115] ≠ 3 ∧
      (Pthread.mergedCandidates NUM_THREADS 2
        [[99, 97, 116], [99, 97, 116, 115], [100, 111, 103]] [99, 116, 97]).map
        (List.map Suggestion.word) ≠ some [[99, 97, 116]] := by
  decide

/-- C16 amended: the distance between "cta" and "cat" is 2 and so is the distance between
"cta" and "cats" (insert `a` after `c`, substitute the final `a` by `s`), while "dog" is at
distance 3; so over "cat", "cats", "dog" the scan for "cta" yields "cat" and "cats" with
threshold 2, all three words with threshold 3, and nothing with threshold 1, for every
worker count and every order of the OpenMP iterations. -/
theorem scenario_one_distances (numThreads : Nat) (hT : 1 ≤ numThreads) :
    editDistance [99, 116, 97] [99, 97, 116] = 2 ∧
    editDistance [99, 116, 97] [99, 97, 116, 115] = 2 ∧
    editDistance [99, 116, 97] [100, 111, 103] = 3 ∧
    EditScript [99, 116, 97] [99, 97, 116, 115] 2 ∧
    Pthread.mergedCandidates numThreads 2
      [[99, 97, 116], [99, 97, 116, 115], [100, 111, 103]] [99, 116, 97] =
      some [Suggestion.mk [99, 97, 116] 2, Suggestion.mk [99, 97, 116, 115] 2] ∧
    Pthread.mergedCandidates numThreads 3
      [[99, 97, 116], [99, 97, 116, 115], [100, 111, 103]] [99, 116, 97] =
      some [Suggestion.mk [99, 97, 116] 2, Suggestion.mk [99, 97, 116, 115] 2,
        Suggestion.mk [100, 111, 103] 3] ∧
    Pthread.mergedCandidates numThreads 1
      [[99, 97, 116], [99, 97, 116, 115], [100, 111, 103]] [99, 116, 97] = some [] ∧
    (∀ order : List Int, order.Perm [0, 1, 2] →
      ∃ candidates,
        Omp.collectedCandidates 2 [[99, 97, 116], [99, 97, 116, 115], [100, 111, 103]]
          [99, 116, 97] order = some candidates ∧
        candidates.Perm
          [Suggestion.mk [99, 97, 116] 2, Suggestion.mk [99, 97, 116, 115] 2]) := by
  refine ⟨by decide, by decide, by decide, ?_, ?_, ?_, ?_, ?_⟩
  · exact EditScript.keep 99 (EditScript.insert 97 (EditScript.keep 116
      (EditScript.substitute 97 115 EditScript.done)))
  · rw [mergedCandidates_eq numThreads hT]
    decide
  · rw [mergedCandidates_eq numThreads hT]
    decide
  · rw [mergedCandidates_eq numThreads hT]
    decide
  · intro order hp
    obtain ⟨candidates, hc, hperm⟩ := collectedCandidates_eq 2
      [[99, 97, 116], [99, 97, 116, 115], [100, 111, 103]] [99, 116, 97] order hp
    exact ⟨candidates, hc, hperm.trans (by decide)⟩

/-- Instance of the amended C16 with the 8 threads of `common.h`. -/
theorem scenario_one_distances_witness :
    Pthread.mergedCandidates NUM_THREADS SUGGESTION_THRESHOLD
        [[99, 97, 116], [99, 97, 116, 115], [100, 111, 103]] [99, 116, 97] =
      some [Suggestion.mk [99, 97, 116] 2, Suggestion.mk [99, 97, 116, 115] 2] :=
  (scenario_one_distances NUM_THREADS (by decide)).2.2.2.2.1

/-! ## Classification: the cap and the append discipline -/

theorem spellCheckIteration_cases (maxMisspelled : Nat) (dictionary : List CStr)
    (g g' : Globals) (i : Int) (h : spellCheckIteration maxMisspelled dictionary g i = some g') :
    g'.inputWords = g.inputWords ∧
    (g' = g ∨ (g.misspelledWords.length < maxMisspelled ∧
      isWordInDictionary dictionary (wordAt g.inputWords i) = some 0 ∧
      g'.misspelledWords = g.misspelledWords ++ [i])) := by
  unfold spellCheckIteration at h
  split at h
  · split at h
    · cases h
    · rename_i found hf
      split at h
      · split at h
        · cases h
          rename_i h0 hlt
          subst h0
          exact ⟨rfl, Or.inr ⟨hlt, hf, rfl⟩⟩
        · cases h
          exact ⟨rfl, Or.inl rfl⟩
      · cases h
        exact ⟨rfl, Or.inl rfl⟩
  · cases h

/-- The globals `b` come after the globals `a` in a classification run. -/
theorem spellCheckIteration_follows (maxMisspelled : Nat) (dictionary : List CStr)
    (g g' : Globals) (i : Int) (h : spellCheckIteration maxMisspelled dictionary g i = some g') :
    g'.inputWords = g.inputWords ∧ g.misspelledWords <+: g'.misspelledWords ∧
      (g.misspelledWords.length ≤ maxMisspelled →
        g'.misspelledWords.length ≤ maxMisspelled) := by
  obtain ⟨hin, hc | ⟨hlt, _, happ⟩⟩ := spellCheckIteration_cases maxMisspelled dictionary g g' i h
  · subst hc
    exact ⟨rfl, List.prefix_refl _, fun h => h⟩
  · refine ⟨hin, ?_, fun _ => ?_⟩
    · rw [happ]
      exact List.prefix_append _ _
    · rw [happ, List.length_append, List.length_singleton]
      omega

theorem spellCheckThreadStep_follows (maxMisspelled : Nat) (dictionary : List CStr)
    (data : List ThreadRange) (s s' : SpellState) (k : Nat)
    (h : spellCheckThreadStep maxMisspelled dictionary data s k = some s') :
    s'.globals.inputWords = s.globals.inputWords ∧
      s.globals.misspelledWords <+: s'.globals.misspelledWords ∧
      (s.globals.misspelledWords.length ≤ maxMisspelled →
        s'.globals.misspelledWords.length ≤ maxMisspelled) := by
  unfold spellCheckThreadStep at h
  split at h
  · split at h
    · split at h
      · cases h
      · rename_i g hg
        cases h
        exact spellCheckIteration_follows maxMisspelled dictionary _ _ _ hg
    · cases h
      exact ⟨rfl, List.prefix_refl _, fun h => h⟩
  · cases h
    exact ⟨rfl, List.prefix_refl _, fun h => h⟩

theorem foldlM_follows {σ α : Type} (f : σ → α → Option σ) (R : σ → σ → Prop)
    (hrefl : ∀ a, R a a) (htrans : ∀ a b c, R a b → R b c → R a c)
    (hstep : ∀ a x b, f a x = some b → R a b) :
    ∀ (l : List α) (a b : σ), l.foldlM f a = some b → R a b := by
  intro l
  induction l with
  | nil =>
    intro a b h
    simp only [List.foldlM_nil, Option.pure_def, Option.some.injEq] at h
    subst h
    exact hrefl a
  | cons x l ih =>
    intro a b h
    rw [List.foldlM_cons] at h
    cases hx : f a x with
    | none => rw [hx] at h; simp at h
    | some c =>
      rw [hx] at h
      exact htrans a c b (hstep a x c hx) (ih c b h)

theorem spellCheckRun_follows (maxMisspelled : Nat) (dictionary : List CStr)
    (data : List ThreadRange) (schedule : List Nat) (s s' : SpellState)
    (h : schedule.foldlM (spellCheckThreadStep maxMisspelled dictionary data) s = some s') :
    s'.globals.inputWords = s.globals.inputWords ∧
      s.globals.misspelledWords <+: s'.globals.misspelledWords ∧
      (s.globals.misspelledWords.length ≤ maxMisspelled →
        s'.globals.misspelledWords.length ≤ maxMisspelled) :=
  foldlM_follows (spellCheckThreadStep maxMisspelled dictionary data)
    (fun a b => b.globals.inputWords = a.globals.inputWords ∧
      a.globals.misspelledWords <+: b.globals.misspelledWords ∧
      (a.globals.misspelledWords.length ≤ maxMisspelled →
        b.globals.misspelledWords.length ≤ maxMisspelled))
    (fun _ => ⟨rfl, List.prefix_refl _, fun h => h⟩)
    (fun _ _ _ hab hbc => ⟨hbc.1.trans hab.1, hab.2.1.trans hbc.2.1,
      fun h => hbc.2.2 (hab.2.2 h)⟩)
    (fun a x b hs => spellCheckThreadStep_follows maxMisspelled dictionary data a b x hs)
    schedule s s' h

theorem spellCheckOmpRun_follows (maxMisspelled : Nat) (dictionary : List CStr)
    (order : List Int) (g g' : Globals)
    (h : order.foldlM (spellCheckIteration maxMisspelled dictionary) g = some g') :
    g'.inputWords = g.inputWords ∧ g.misspelledWords <+: g'.misspelledWords ∧
      (g.misspelledWords.length ≤ maxMisspelled →
        g'.misspelledWords.length ≤ maxMisspelled) :=
  foldlM_follows (spellCheckIteration maxMisspelled dictionary)
    (fun a b => b.inputWords = a.inputWords ∧ a.misspelledWords <+: b.misspelledWords ∧
      (a.misspelledWords.length ≤ maxMisspelled → b.misspelledWords.length ≤ maxMisspelled))
    (fun _ => ⟨rfl, List.prefix_refl _, fun h => h⟩)
    (fun _ _ _ hab hbc => ⟨hbc.1.trans hab.1, hab.2.1.trans hbc.2.1,
      fun h => hbc.2.2 (hab.2.2 h)⟩)
    (fun a x b hs => spellCheckIteration_follows maxMisspelled dictionary a b x hs)
    order g g' h

theorem foldlM_append_some {σ α : Type} (f : σ → α → Option σ) (l l' : List α) (a b c : σ)
    (h1 : l.foldlM f a = some b) (h2 : (l ++ l').foldlM f a = some c) :
    l'.foldlM f b = some c := by
  rw [List.foldlM_append, h1] at h2
  exact h2

/-- C13: one pass of the classification loop leaves the input words alone and either
leaves the misspelled list alone or, the count being below the cap and the word being out
of the dictionary, appends the word; at the cap nothing changes.  Hence at every point of
every run, of the spell-check threads under any schedule and of the OpenMP loop under any
order, the misspelled count is at most the cap, the list at an earlier point is an initial
part of the list at any later point (no entry is overwritten), and the input is the one
loaded. -/
theorem classification_respects_cap (maxMisspelled : Nat) (dictionary : List CStr) :
    (∀ (g g' : Globals) (i : Int),
      spellCheckIteration maxMisspelled dictionary g i = some g' →
      g'.inputWords = g.inputWords ∧
      (g' = g ∨ (g.misspelledWords.length < maxMisspelled ∧
        isWordInDictionary dictionary (wordAt g.inputWords i) = some 0 ∧
        g'.misspelledWords = g.misspelledWords ++ [i])) ∧
      (maxMisspelled ≤ g.misspelledWords.length → g' = g)) ∧
    (∀ (numThreads : Nat) (inputWords : List CStr) (schedule more : List Nat)
      (s s' : SpellState),
      spellCheckPthread numThreads maxMisspelled dictionary inputWords schedule = some s →
      spellCheckPthread numThreads maxMisspelled dictionary inputWords (schedule ++ more) =
        some s' →
      s.globals.misspelledWords.length ≤ maxMisspelled ∧
      s.globals.misspelledWords <+: s'.globals.misspelledWords ∧
      s.globals.inputWords = inputWords ∧ s'.globals.inputWords = inputWords) ∧
    (∀ (inputWords : List CStr) (order more : List Int) (g g' : Globals),
      spellCheckOmp maxMisspelled dictionary inputWords order = some g →
      spellCheckOmp maxMisspelled dictionary inputWords (order ++ more) = some g' →
      g.misspelledWords.length ≤ maxMisspelled ∧
      g.misspelledWords <+: g'.misspelledWords ∧
      g.inputWords = inputWords ∧ g'.inputWords = inputWords) := by
  refine ⟨?_, ?_, ?_⟩
  · intro g g' i h
    obtain ⟨hin, hc⟩ := spellCheckIteration_cases maxMisspelled dictionary g g' i h
    refine ⟨hin, hc, fun hcap => ?_⟩
    rcases hc with hc | ⟨hlt, _, _⟩
    · exact hc
    · omega
  · intro numThreads inputWords schedule more s s' h1 h2
    unfold spellCheckPthread at h1 h2
    have hmore := foldlM_append_some _ _ _ _ _ _ h1 h2
    have ha := spellCheckRun_follows maxMisspelled dictionary _ schedule _ s h1
    have hb := spellCheckRun_follows maxMisspelled dictionary _ more s s' hmore
    refine ⟨ha.2.2 (by simp [spellCheckInit]), hb.2.1, ha.1, ?_⟩
    rw [hb.1, ha.1]
    rfl
  · intro inputWords order more g g' h1 h2
    unfold spellCheckOmp at h1 h2
    have hmore := foldlM_append_some _ _ _ _ _ _ h1 h2
    have ha := spellCheckOmpRun_follows maxMisspelled dictionary order _ g h1
    have hb := spellCheckOmpRun_follows maxMisspelled dictionary more g g' hmore
    exact ⟨ha.2.2 (by simp), hb.2.1, ha.1, by rw [hb.1, ha.1]⟩

/-- Instance of C13, scenario 3 in small: cap 1, dictionary "cat", "cats", "dog", input "cta",
"x", "dog", "y" on two threads.  After the steps 1, 0 the list holds "cta"; the further
steps 0, 1 meet "x" and "y" and drop them. -/
theorem classification_respects_cap_witness :
    spellCheckPthread 2 1 [[99, 97, 116], [99, 97, 116, 115], [100, 111, 103]]
        [[99, 116, 97], [120], [100, 111, 103], [121]] [1, 0, 0, 1] =
      some (SpellState.mk (Globals.mk [[99, 116, 97], [120], [100, 111, 103], [121]] [0])
        [2, 4]) ∧
    (SpellState.mk (Globals.mk [[99, 116, 97], [120], [100, 111, 103], [121]] [0])
      [1, 3]).globals.misspelledWords.length ≤ 1 :=
  have h1 : spellCheckPthread 2 1 [[99, 97, 116], [99, 97, 116, 115], [100, 111, 103]]
      [[99, 116, 97], [120], [100, 111, 103], [121]] [1, 0] =
      some (SpellState.mk (Globals.mk [[99, 116, 97], [120], [100, 111, 103], [121]] [0])
        [1, 3]) := by decide
  have h2 : spellCheckPthread 2 1 [[99, 97, 116], [99, 97, 116, 115], [100, 111, 103]]
      [[99, 116, 97], [120], [100, 111, 103], [121]] ([1, 0] ++ [0, 1]) =
      some (SpellState.mk (Globals.mk [[99, 116, 97], [120], [100, 111, 103], [121]] [0])
        [2, 4]) := by decide
  ⟨h2, ((classification_respects_cap 1
    [[99, 97, 116], [99, 97, 116, 115], [100, 111, 103]]).2.1 2
    [[99, 116, 97], [120], [100, 111, 103], [121]] [1, 0] [0, 1] _ _ h1 h2).1⟩

/-! ## Classification: order of the appends of one worker -/

theorem spellCheckThreadStep_cases (maxMisspelled : Nat) (dictionary : List CStr)
    (data : List ThreadRange) (s s' : SpellState) (k : Nat)
    (h : spellCheckThreadStep maxMisspelled dictionary data s k = some s') :
    s' = s ∨ ∃ (d : ThreadRange) (i : Int) (g : Globals),
      data[k]? = some d ∧ s.counters[k]? = some i ∧ i ≤ d.end_ ∧
      spellCheckIteration maxMisspelled dictionary s.globals i = some g ∧
      s' = SpellState.mk g (s.counters.set k (i + 1)) := by
  unfold spellCheckThreadStep at h
  cases hd : data[k]? with
  | none =>
    rw [hd] at h
    simp only at h
    cases h
    exact Or.inl rfl
  | some d =>
    cases hi : s.counters[k]? with
    | none =>
      rw [hd, hi] at h
      simp only at h
      cases h
      exact Or.inl rfl
    | some i =>
      rw [hd, hi] at h
      simp only at h
      by_cases hle : i ≤ d.end_
      · rw [if_pos hle] at h
        cases hg : spellCheckIteration maxMisspelled dictionary s.globals i with
        | none => rw [hg] at h; cases h
        | some g =>
          rw [hg] at h
          cases h
          exact Or.inr ⟨d, i, g, rfl, rfl, hle, hg, rfl⟩
      · rw [if_neg hle] at h
        cases h
        exact Or.inl rfl

theorem getElem?_set_counter (counters : List Int) (k j : Nat) (i c : Int)
    (_ : counters[k]? = some i) (hc : (counters.set k (i + 1))[j]? = some c) :
    (j = k ∧ c = i + 1) ∨ (j ≠ k ∧ counters[j]? = some c) := by
  rw [List.getElem?_set] at hc
  by_cases hjk : k = j
  · subst hjk
    rw [if_pos rfl] at hc
    split at hc
    · simp only [Option.some.injEq] at hc
      exact Or.inl ⟨rfl, hc.symm⟩
    · cases hc
  · rw [if_neg hjk] at hc
    exact Or.inr ⟨fun e => hjk e.symm, hc⟩

theorem ownersInv_step (maxMisspelled : Nat) (dictionary : List CStr)
    (data : List ThreadRange) (st st' : SpellState × List Nat) (k : Nat)
    (hinv : OwnersInv data st)
    (h : spellCheckThreadStepOwners maxMisspelled dictionary data st k = some st') :
    OwnersInv data st' := by
  obtain ⟨hlen, hbound, hpair⟩ := hinv
  unfold spellCheckThreadStepOwners at h
  cases hs : spellCheckThreadStep maxMisspelled dictionary data st.1 k with
  | none => rw [hs] at h; cases h
  | some s' =>
    rw [hs] at h
    simp only at h
    rcases spellCheckThreadStep_cases maxMisspelled dictionary data st.1 s' k hs with
      rfl | ⟨d, i, g, hd, hi, hle, hg, rfl⟩
    · rw [if_neg (lt_irrefl _)] at h
      cases h
      exact ⟨hlen, hbound, hpair⟩
    · have hkd : k < data.length := by
        by_contra hge
        rw [List.getElem?_eq_none (by omega)] at hd
        cases hd
      have hbound' : ∀ p ∈ List.zip st.2 st.1.globals.misspelledWords,
          p.1 < data.length ∧ ∀ c, (st.1.counters.set k (i + 1))[p.1]? = some c → p.2 < c := by
        intro p hp
        refine ⟨(hbound p hp).1, fun c hc => ?_⟩
        rcases getElem?_set_counter st.1.counters k p.1 i c hi hc with ⟨hpk, rfl⟩ | ⟨_, hc'⟩
        · have := (hbound p hp).2 i (by rw [hpk]; exact hi)
          omega
        · exact (hbound p hp).2 c hc'
      obtain ⟨_, hc | ⟨hlt, _, happ⟩⟩ :=
        spellCheckIteration_cases maxMisspelled dictionary st.1.globals g i hg
      · subst hc
        simp only at h
        rw [if_neg (lt_irrefl _)] at h
        cases h
        exact ⟨hlen, hbound', hpair⟩
      · simp only at h
        rw [happ, List.length_append, List.length_singleton, if_pos (by omega)] at h
        cases h
        have hzip : List.zip (st.2 ++ [k]) (st.1.globals.misspelledWords ++ [i]) =
            List.zip st.2 st.1.globals.misspelledWords ++ [(k, i)] := by
          rw [List.zip_append hlen]
          rfl
        refine ⟨?_, ?_, ?_⟩
        · simp only [happ, List.length_append, List.length_singleton]
          omega
        · simp only [happ]
          rw [hzip]
          intro p hp
          rcases List.mem_append.mp hp with hp | hp
          · exact hbound' p hp
          · simp only [List.mem_singleton] at hp
            subst hp
            refine ⟨hkd, fun c hc => ?_⟩
            rcases getElem?_set_counter st.1.counters k k i c hi hc with ⟨_, rfl⟩ | ⟨hne, _⟩
            · omega
            · exact absurd rfl hne
        · simp only [happ]
          rw [hzip, List.pairwise_append]
          refine ⟨hpair, List.pairwise_singleton _ _, ?_⟩
          intro p hp q hq hpq
          simp only [List.mem_singleton] at hq
          subst hq
          exact (hbound p hp).2 i (by rw [hpq]; exact hi)

theorem foldlM_invariant {σ α : Type} (f : σ → α → Option σ) (P : σ → Prop)
    (hstep : ∀ a x b, P a → f a x = some b → P b) :
    ∀ (l : List α) (a b : σ), P a → l.foldlM f a = some b → P b := by
  intro l
  induction l with
  | nil =>
    intro a b ha h
    simp only [List.foldlM_nil, Option.pure_def, Option.some.injEq] at h
    subst h
    exact ha
  | cons x l ih =>
    intro a b ha h
    rw [List.foldlM_cons] at h
    cases hx : f a x with
    | none => rw [hx] at h; simp at h
    | some c =>
      rw [hx] at h
      exact ih c b (hstep a x c ha hx) h

theorem spellCheckOwners_fst (maxMisspelled : Nat) (dictionary : List CStr)
    (data : List ThreadRange) (schedule : List Nat) :
    ∀ (st st' : SpellState × List Nat),
      schedule.foldlM (spellCheckThreadStepOwners maxMisspelled dictionary data) st =
        some st' →
      schedule.foldlM (spellCheckThreadStep maxMisspelled dictionary data) st.1 =
        some st'.1 := by
  induction schedule with
  | nil =>
    intro st st' h
    simp only [List.foldlM_nil, Option.pure_def, Option.some.injEq] at h
    subst h
    rfl
  | cons k rest ih =>
    intro st st' h
    rw [List.foldlM_cons] at h ⊢
    cases hx : spellCheckThreadStepOwners maxMisspelled dictionary data st k with
    | none => rw [hx] at h; simp at h
    | some st1 =>
      rw [hx] at h
      have hfst : spellCheckThreadStep maxMisspelled dictionary data st.1 k = some st1.1 := by
        unfold spellCheckThreadStepOwners at hx
        cases hs : spellCheckThreadStep maxMisspelled dictionary data st.1 k with
        | none => rw [hs] at hx; cases hx
        | some s =>
          rw [hs] at hx
          simp only at hx
          split at hx <;> cases hx <;> rfl
      rw [hfst]
      exact ih st1 st' h

theorem contributedBy_increasing (data : List ThreadRange) (st : SpellState × List Nat)
    (hinv : OwnersInv data st) (k : Nat) :
    List.Pairwise (fun a b : Int => a < b)
      (contributedBy k st.2 st.1.globals.misspelledWords) := by
  unfold contributedBy
  rw [List.pairwise_map]
  have hf := List.Pairwise.filter (fun p : Nat × Int => decide (p.1 = k)) hinv.2.2
  refine List.Pairwise.imp_of_mem ?_ hf
  intro p q hp hq hpq
  have hp' := of_decide_eq_true (List.mem_filter.mp hp).2
  have hq' := of_decide_eq_true (List.mem_filter.mp hq).2
  exact hpq (hp'.trans hq'.symm)

theorem spellCheckOwners_exists (maxMisspelled : Nat) (dictionary : List CStr)
    (data : List ThreadRange) (schedule : List Nat) :
    ∀ (st : SpellState × List Nat) (s' : SpellState),
      schedule.foldlM (spellCheckThreadStep maxMisspelled dictionary data) st.1 = some s' →
      ∃ owners,
        schedule.foldlM (spellCheckThreadStepOwners maxMisspelled dictionary data) st =
          some (s', owners) := by
  induction schedule with
  | nil =>
    intro st s' h
    simp only [List.foldlM_nil, Option.pure_def, Option.some.injEq] at h
    subst h
    exact ⟨st.2, rfl⟩
  | cons k rest ih =>
    intro st s' h
    rw [List.foldlM_cons] at h
    cases hs : spellCheckThreadStep maxMisspelled dictionary data st.1 k with
    | none => rw [hs] at h; simp at h
    | some s1 =>
      rw [hs] at h
      by_cases hlt : st.1.globals.misspelledWords.length < s1.globals.misspelledWords.length
      · obtain ⟨owners, ho⟩ := ih (s1, st.2 ++ [k]) s' h
        refine ⟨owners, ?_⟩
        rw [List.foldlM_cons]
        unfold spellCheckThreadStepOwners
        rw [hs]
        simp only
        rw [if_pos hlt]
        exact ho
      · obtain ⟨owners, ho⟩ := ih (s1, st.2) s' h
        refine ⟨owners, ?_⟩
        rw [List.foldlM_cons]
        unfold spellCheckThreadStepOwners
        rw [hs]
        simp only
        rw [if_neg hlt]
        exact ho

theorem ownersInv_init (inputWords : List CStr) (data : List ThreadRange) :
    OwnersInv data (spellCheckInit inputWords data, []) := by
  refine ⟨rfl, ?_, ?_⟩ <;> simp [spellCheckInit]

theorem spellCheckPthreadOwners_inv (numThreads maxMisspelled : Nat)
    (dictionary inputWords : List CStr) (schedule : List Nat) (st : SpellState × List Nat)
    (h : spellCheckPthreadOwners numThreads maxMisspelled dictionary inputWords schedule =
      some st) :
    OwnersInv (partition inputWords.length numThreads) st :=
  foldlM_invariant _ (OwnersInv (partition inputWords.length numThreads))
    (fun a x b ha hs => ownersInv_step maxMisspelled dictionary _ a b x ha hs)
    schedule _ st (ownersInv_init inputWords _) h

theorem pairwise_lt_indices (n : Nat) :
    List.Pairwise (fun a b : Int => a < b) ((List.range n).map (fun (k : Nat) => (k : Int))) := by
  rw [List.pairwise_map]
  exact List.Pairwise.imp (fun h => by exact_mod_cast h) (List.pairwise_lt_range n)

theorem filter_indices_words (dictionary inputWords : List CStr) :
    (((List.range inputWords.length).map (fun (k : Nat) => (k : Int))).filter
      (fun i => notInDictionary dictionary (wordAt inputWords i))).map (wordAt inputWords) =
      inputWords.filter (notInDictionary dictionary) := by
  have := List.filter_map (f := wordAt inputWords) (p := notInDictionary dictionary)
    (l := (List.range inputWords.length).map (fun (k : Nat) => (k : Int)))
  rw [map_wordAt_indices] at this
  rw [this]
  rfl

theorem singleWorker_misspelled (maxMisspelled : Nat) (dictionary inputWords : List CStr)
    (hmax : dictionary.length ≤ MAX_DICT_WORDS) (schedule : List Nat) (s : SpellState)
    (hrun : spellCheckPthread 1 maxMisspelled dictionary inputWords schedule = some s)
    (hj : spellCheckJoined (partition inputWords.length 1) s)
    (hcap : (inputWords.filter (notInDictionary dictionary)).length ≤ maxMisspelled) :
    s.globals.misspelledWords =
      ((List.range inputWords.length).map (fun (k : Nat) => (k : Int))).filter
        (fun i => notInDictionary dictionary (wordAt inputWords i)) := by
  obtain ⟨owners, ho⟩ := spellCheckOwners_exists maxMisspelled dictionary
    (partition inputWords.length 1) schedule
    (spellCheckInit inputWords (partition inputWords.length 1), []) s hrun
  have hinv := spellCheckPthreadOwners_inv 1 maxMisspelled dictionary inputWords schedule
    (s, owners) ho
  have hlen1 : (partition inputWords.length 1).length = 1 :=
    (partition_spec inputWords.length 1 (le_refl 1)).1
  have hsorted : List.Pairwise (fun a b : Int => a < b) s.globals.misspelledWords := by
    have hz : (List.zip owners s.globals.misspelledWords).map Prod.snd =
        s.globals.misspelledWords := List.map_snd_zip _ _ (le_of_eq hinv.1.symm)
    rw [← hz, List.pairwise_map]
    refine List.Pairwise.imp_of_mem ?_ hinv.2.2
    intro p q hp hq hpq
    have h1 := (hinv.2.1 p hp).1
    have h2 := (hinv.2.1 q hq).1
    rw [hlen1] at h1 h2
    exact hpq (by omega)
  obtain ⟨s', done, hrun', hsi, hperm⟩ := spellCheckPthread_inv 1 (le_refl 1) maxMisspelled
    dictionary inputWords hmax schedule
  rw [hrun] at hrun'
  cases hrun'
  have hfp := (hperm hj).filter (fun i => notInDictionary dictionary (wordAt inputWords i))
  have hlen : (done.filter (fun i => notInDictionary dictionary (wordAt inputWords i))).length =
      (inputWords.filter (notInDictionary dictionary)).length := by
    rw [hfp.length_eq, ← filter_indices_words, List.length_map]
  have hmw := hsi.2.1
  rw [List.take_of_length_le (by omega)] at hmw
  rw [hmw] at hsorted ⊢
  exact List.eq_of_perm_of_sorted hfp hsorted
    (List.Pairwise.sublist (List.filter_sublist _) (pairwise_lt_indices _))

/-- C17: under every schedule the entries that one worker appended stand in the misspelled
list in increasing input-index order (every entry has exactly one appending worker); and
with a single worker, the cap not being reached, the misspelled list once the worker is
joined is exactly the input words not in the dictionary, in input order. -/
theorem appends_follow_input_order (maxMisspelled : Nat) (dictionary inputWords : List CStr) :
    (∀ (numThreads : Nat) (schedule : List Nat) (s : SpellState),
      spellCheckPthread numThreads maxMisspelled dictionary inputWords schedule = some s →
      ∃ owners,
        spellCheckPthreadOwners numThreads maxMisspelled dictionary inputWords schedule =
          some (s, owners) ∧
        owners.length = s.globals.misspelledWords.length ∧
        ∀ k, List.Pairwise (fun a b : Int => a < b)
          (contributedBy k owners s.globals.misspelledWords)) ∧
    (∀ (schedule : List Nat) (s : SpellState),
      dictionary.length ≤ MAX_DICT_WORDS →
      spellCheckPthread 1 maxMisspelled dictionary inputWords schedule = some s →
      spellCheckJoined (partition inputWords.length 1) s →
      (inputWords.filter (notInDictionary dictionary)).length ≤ maxMisspelled →
      s.globals.misspelledWords =
        ((List.range inputWords.length).map (fun (k : Nat) => (k : Int))).filter
          (fun i => notInDictionary dictionary (wordAt inputWords i)) ∧
      s.globals.misspelledWords.map (wordAt inputWords) =
        inputWords.filter (notInDictionary dictionary)) := by
  constructor
  · intro numThreads schedule s hrun
    obtain ⟨owners, ho⟩ := spellCheckOwners_exists maxMisspelled dictionary
      (partition inputWords.length numThreads) schedule
      (spellCheckInit inputWords (partition inputWords.length numThreads), []) s hrun
    have hinv := spellCheckPthreadOwners_inv numThreads maxMisspelled dictionary inputWords
      schedule (s, owners) ho
    exact ⟨owners, ho, hinv.1, fun k => contributedBy_increasing _ (s, owners) hinv k⟩
  · intro schedule s hmax hrun hj hcap
    have h := singleWorker_misspelled maxMisspelled dictionary inputWords hmax schedule s hrun
      hj hcap
    refine ⟨h, ?_⟩
    rw [h, filter_indices_words]

/-- Instance of C17: dictionary "cat", "cats", "dog", input "cta", "x", "dog", "y".  On two
threads under the schedule 1, 1, 0, 0 the list is "y", "cta", "x": thread 1 appended "y",
thread 0 appended "cta" then "x".  On one thread the list is "cta", "x", "y". -/
theorem appends_follow_input_order_witness :
    spellCheckPthreadOwners 2 5 [[99, 97, 116], [99, 97, 116, 115], [100, 111, 103]]
        [[99, 116, 97], [120], [100, 111, 103], [121]] [1, 1, 0, 0] =
      some (SpellState.mk (Globals.mk [[99, 116, 97], [120], [100, 111, 103], [121]]
        [3, 0, 1]) [2, 4], [1, 0, 0]) ∧
    contributedBy 0 [1, 0, 0] [3, 0, 1] = [0, 1] ∧
    (∃ s, spellCheckPthread 1 5 [[99, 97, 116], [99, 97, 116, 115], [100, 111, 103]]
        [[99, 116, 97], [120], [100, 111, 103], [121]] [0, 0, 0, 0] = some s ∧
      s.globals.misspelledWords.map (wordAt [[99, 116, 97], [120], [100, 111, 103], [121]]) =
        [[99, 116, 97], [120], [121]]) := by
  refine ⟨by decide, by decide, ?_⟩
  have hrun : spellCheckPthread 1 5 [[99, 97, 116], [99, 97, 116, 115], [100, 111, 103]]
      [[99, 116, 97], [120], [100, 111, 103], [121]] [0, 0, 0, 0] =
      some (SpellState.mk (Globals.mk [[99, 116, 97], [120], [100, 111, 103], [121]]
        [0, 1, 3]) [4]) := by decide
  refine ⟨_, hrun, ?_⟩
  exact ((appends_follow_input_order 5 [[99, 97, 116], [99, 97, 116, 115], [100, 111, 103]]
    [[99, 116, 97], [120], [100, 111, 103], [121]]).2 [0, 0, 0, 0] _ (by decide) hrun
    (by decide) (by decide)).2.trans (by decide)

/-! ## The tokenizer -/

